import Mathlib

/-!
Verification of the ProjecThreads repository.

The repository contains two groups of C programs:
* `src/prod_cons/q1_2.c` — a multi-producer / multi-consumer bounded circular
  buffer guarded by a mutex and two counting semaphores (`empty_slots`,
  `full_slots`), with a shutdown protocol driven by the `active_producers`
  counter: the last producer posts one `full_slots` permit per consumer, `main`
  posts one more batch after joining the producers, and an exiting consumer
  re-posts one permit before terminating.
* `src/prod_cons/q1_1.c` — a single-consumer variant whose consumer waits (on a
  condition variable) until the buffer is full or all producers finished, and
  then drains the whole buffer in one critical section.
* `src/leibniz/q2_1.c`, `src/leibniz/q2_2.c` — a parallel Leibniz series where
  each thread computes `SIZE / NUM_THREADS` terms starting at
  `i * (SIZE / NUM_THREADS)`.
* `src/leibniz/calc-leibniz.c` — a parallel array sum where thread `i` starts
  at `i * (SIZE / NUM_THREADS)` and strides by `NUM_THREADS`.

This file gives a shallow embedding of those programs and proves (or refutes)
the specification's claims about them.

The q1_2 model: each mutex-protected critical section of the C code is one
atomic transition (every shared variable in it is accessed only under the same
mutex), while the semaphore operations, which the C code performs outside the
mutex, are separate transitions.  Each thread is deterministic, so a scheduling
step is named by the thread it runs; the `step` function below executes one
transition of one thread and returns `none` when that thread is blocked
(semaphore at zero) or terminated.  Items are tagged with (producer index,
sequence number); the concrete payload (a random sale value) is opaque and
plays no role in any claim.
-/

namespace Q12

/-- An item in the buffer: (index of the producing thread, sequence number of
the item within that producer).  The payload double is opaque. -/
abbrev Item := ℕ × ℕ

/-- The compile-time configuration of `q1_2.c`: `NUM_PRODUCERS`,
`NUM_CONSUMERS`, `BUFFER_SIZE`, and the `num_sales` argument handed to each
producer thread. -/
structure Config where
  P : ℕ
  C : ℕ
  cap : ℕ
  sales : ℕ → ℕ

/-- Program counter of a producer thread (`producer` in q1_2.c):
`acq` = about to `sem_wait(&empty_slots)`;
`crit` = inside the insertion critical section (lines 106-112);
`post` = about to `sem_post(&full_slots)`;
`finish` = about to run the completion critical section (lines 120-132);
`done` = `pthread_exit`. -/
inductive ProdPc
  | acq | crit | post | finish | done
  deriving DecidableEq

/-- Program counter of a consumer thread (`consumer` in q1_2.c):
`wait` = about to `sem_wait(&full_slots)` (line 161);
`crit` = inside the critical section (lines 165-189): checks the termination
condition and either exits or removes one item;
`repost` = termination detected, about to `sem_post(&full_slots)` (line 175);
`postEmpty` = item removed, about to `sem_post(&empty_slots)` (line 192);
`done` = `pthread_exit`. -/
inductive ConsPc
  | wait | crit | repost | postEmpty | done
  deriving DecidableEq

/-- Program counter of the main thread after spawning all workers:
`post` = joining the producers, then posting `NUM_CONSUMERS` extra
`full_slots` permits (lines 245-255); `done` = finished posting. -/
inductive MainPc
  | post | done
  deriving DecidableEq

/-- Local state of one producer thread: its loop counter (`remaining` items
still to produce) and the ghost list of items it has inserted, in order. -/
structure ProdState where
  remaining : ℕ
  pc : ProdPc
  produced : List Item

/-- Local state of one consumer thread, with the ghost list of items it has
removed, in order. -/
structure ConsState where
  pc : ConsPc
  consumed : List Item

/-- The global state: thread-local states plus the shared variables of
q1_2.c (`buffer`, `count`, `in_idx`, `out_idx`, the two semaphores and
`active_producers`), plus two ghost logs recording the global insertion and
removal orders. -/
structure State where
  prods : ℕ → ProdState
  conss : ℕ → ConsState
  buffer : ℕ → Item
  count : ℤ
  in_idx : ℕ
  out_idx : ℕ
  empty_slots : ℕ
  full_slots : ℕ
  active_producers : ℤ
  mainPc : MainPc
  insLog : List Item
  remLog : List Item

/-- A scheduling action: run one step of producer `i`, of consumer `j`, or of
the main thread. -/
inductive Act
  | prod (i : ℕ)
  | cons (j : ℕ)
  | mainJoin

/-- One scheduling step.  Returns `none` when the selected thread does not
exist, is blocked on a semaphore, or has terminated. -/
def step (cfg : Config) (s : State) : Act → Option State
  | .prod i =>
    if i < cfg.P then
      match (s.prods i).pc with
      | .acq =>
        -- sem_wait(&empty_slots)
        if 0 < s.empty_slots then
          some { s with empty_slots := s.empty_slots - 1,
                        prods := Function.update s.prods i
                          { s.prods i with pc := .crit } }
        else none
      | .crit =>
        -- buffer[in_idx] = sale_value; in_idx = (in_idx + 1) % BUFFER_SIZE; count++;
        some { s with buffer := Function.update s.buffer s.in_idx
                        (i, (s.prods i).produced.length),
                      in_idx := (s.in_idx + 1) % cfg.cap,
                      count := s.count + 1,
                      insLog := s.insLog ++ [(i, (s.prods i).produced.length)],
                      prods := Function.update s.prods i
                        { s.prods i with
                            pc := .post,
                            produced := (s.prods i).produced
                              ++ [(i, (s.prods i).produced.length)] } }
      | .post =>
        -- sem_post(&full_slots); next loop iteration or fall out of the loop
        some { s with full_slots := s.full_slots + 1,
                      prods := Function.update s.prods i
                        { s.prods i with
                            remaining := (s.prods i).remaining - 1,
                            pc := if (s.prods i).remaining - 1 = 0
                                  then .finish else .acq } }
      | .finish =>
        -- active_producers--; if (active_producers == 0) post NUM_CONSUMERS permits
        some { s with active_producers := s.active_producers - 1,
                      full_slots := if s.active_producers - 1 = 0
                                    then s.full_slots + cfg.C
                                    else s.full_slots,
                      prods := Function.update s.prods i
                        { s.prods i with pc := .done } }
      | .done => none
    else none
  | .cons j =>
    if j < cfg.C then
      match (s.conss j).pc with
      | .wait =>
        -- sem_wait(&full_slots)
        if 0 < s.full_slots then
          some { s with full_slots := s.full_slots - 1,
                        conss := Function.update s.conss j
                          { s.conss j with pc := .crit } }
        else none
      | .crit =>
        if s.active_producers = 0 ∧ s.count = 0 then
          -- termination detected: leave the critical section and re-post
          some { s with conss := Function.update s.conss j
                          { s.conss j with pc := .repost } }
        else
          -- sale_value = buffer[out_idx]; out_idx = (out_idx+1) % BUFFER_SIZE; count--;
          some { s with out_idx := (s.out_idx + 1) % cfg.cap,
                        count := s.count - 1,
                        remLog := s.remLog ++ [s.buffer s.out_idx],
                        conss := Function.update s.conss j
                          { s.conss j with
                              pc := .postEmpty,
                              consumed := (s.conss j).consumed
                                ++ [s.buffer s.out_idx] } }
      | .repost =>
        -- sem_post(&full_slots); break
        some { s with full_slots := s.full_slots + 1,
                      conss := Function.update s.conss j
                        { s.conss j with pc := .done } }
      | .postEmpty =>
        -- sem_post(&empty_slots); back to the top of the loop
        some { s with empty_slots := s.empty_slots + 1,
                      conss := Function.update s.conss j
                        { s.conss j with pc := .wait } }
      | .done => none
    else none
  | .mainJoin =>
    match s.mainPc with
    | .post =>
      -- after pthread_join on every producer, post NUM_CONSUMERS extra permits
      if (∀ i < cfg.P, (s.prods i).pc = ProdPc.done) then
        some { s with full_slots := s.full_slots + cfg.C, mainPc := .done }
      else none
    | .done => none

/-- The transition relation: some thread takes one step. -/
def Step (cfg : Config) (s t : State) : Prop :=
  ∃ a, step cfg s a = some t

/-- The initial state, right after `main` has initialized the shared variables
(`sem_init(&empty_slots, 0, BUFFER_SIZE)`, `sem_init(&full_slots, 0, 0)`) and
spawned the workers.  A producer whose `num_sales` is zero skips its loop. -/
def init (cfg : Config) : State where
  prods := fun i =>
    { remaining := cfg.sales i,
      pc := if cfg.sales i = 0 then .finish else .acq,
      produced := [] }
  conss := fun _ => { pc := .wait, consumed := [] }
  buffer := fun _ => (0, 0)
  count := 0
  in_idx := 0
  out_idx := 0
  empty_slots := cfg.cap
  full_slots := 0
  active_producers := cfg.P
  mainPc := .post
  insLog := []
  remLog := []

/-- Reachability from the initial state. -/
def Reachable (cfg : Config) (s : State) : Prop :=
  Relation.ReflTransGen (Step cfg) (init cfg) s

/-- Every worker (and the main thread's post loop) has terminated. -/
def AllDone (cfg : Config) (s : State) : Prop :=
  (∀ i < cfg.P, (s.prods i).pc = ProdPc.done)
    ∧ (∀ j < cfg.C, (s.conss j).pc = ConsPc.done)
    ∧ s.mainPc = MainPc.done

instance (cfg : Config) (s : State) : Decidable (AllDone cfg s) := by
  unfold AllDone; infer_instance

end Q12

namespace Q12

/-- Number of producers whose program counter is `q`. -/
def pcount (cfg : Config) (s : State) (q : ProdPc) : ℕ :=
  ∑ i in Finset.range cfg.P, if (s.prods i).pc = q then 1 else 0

/-- Number of consumers whose program counter is `q`. -/
def ccount (cfg : Config) (s : State) (q : ConsPc) : ℕ :=
  ∑ j in Finset.range cfg.C, if (s.conss j).pc = q then 1 else 0

/-- Number of producers that have not yet run their completion critical
section (the value `active_producers` is meant to track). -/
def activeSpec (cfg : Config) (s : State) : ℕ :=
  ∑ i in Finset.range cfg.P, if (s.prods i).pc = ProdPc.done then 0 else 1

/-- Total number of items inserted so far, summed over the producers. -/
def producedLen (cfg : Config) (s : State) : ℕ :=
  ∑ i in Finset.range cfg.P, (s.prods i).produced.length

/-- Total number of items removed so far, summed over the consumers. -/
def consumedLen (cfg : Config) (s : State) : ℕ :=
  ∑ j in Finset.range cfg.C, (s.conss j).consumed.length

/-- The live content of the circular buffer: the `count` items starting at
`out_idx`. -/
def bufQueue (cfg : Config) (s : State) : List Item :=
  (List.range s.count.toNat).map fun k => s.buffer ((s.out_idx + k) % cfg.cap)

/-- The subsequence of a log contributed by producer `i`. -/
def byProd (i : ℕ) (l : List Item) : List Item :=
  l.filter fun it => it.1 == i

/-- Shape of a producer's local state at each program point: how its ghost
output, loop counter, and `num_sales` argument relate. -/
def prodOk (n : ℕ) (p : ProdState) : Prop :=
  ((p.pc = ProdPc.acq ∨ p.pc = ProdPc.crit) →
      p.produced.length + p.remaining = n ∧ 1 ≤ p.remaining)
    ∧ (p.pc = ProdPc.post →
      p.produced.length + p.remaining = n + 1 ∧ 1 ≤ p.remaining)
    ∧ ((p.pc = ProdPc.finish ∨ p.pc = ProdPc.done) →
      p.remaining = 0 ∧ p.produced.length = n)

/-- The global inductive invariant of the q1_2 system.

`hA`: `active_producers` counts the producers that have not completed.
`hB`: accounting of the `empty_slots` semaphore — a producer inside the
  insertion critical section holds one permit it has not yet turned into an
  item, and a consumer at `postEmpty` has removed an item but not yet
  returned the permit.
`hC`: accounting of the `full_slots` semaphore: permits = items posted
  (insertions minus the ones whose `sem_post` is still pending) plus the
  `NUM_CONSUMERS` shutdown posts of the last producer, plus the
  `NUM_CONSUMERS` posts of `main`, plus the re-posts of exited consumers,
  minus the `sem_wait`s performed (one per removed item, one per consumer
  past its `sem_wait` in the current iteration, one per exited consumer —
  rearranged additively, with the exited consumers' waits and re-posts
  cancelled).
`hD`: per-producer loop shape.  `hE`: a consumer reaches the exit path only
after production ended with an empty buffer (and both facts are then
permanent).  `hF`/`hcnt`/`hG`/`hH`: the buffer is the FIFO difference between
the insertion and removal logs.  `hK`: `main` posts only after all producers
finished.  `hL`/`hM`: the logs partition into the per-thread ghost lists. -/
structure Inv (cfg : Config) (s : State) : Prop where
  hA : s.active_producers = (activeSpec cfg s : ℤ)
  hB : (s.empty_slots : ℤ) + s.count + (pcount cfg s ProdPc.crit : ℤ)
        + (ccount cfg s ConsPc.postEmpty : ℤ) = (cfg.cap : ℤ)
  hC : (s.full_slots : ℤ) + (consumedLen cfg s : ℤ) + (ccount cfg s ConsPc.crit : ℤ)
        + (ccount cfg s ConsPc.repost : ℤ) + (pcount cfg s ProdPc.post : ℤ)
      = (producedLen cfg s : ℤ)
        + (if s.active_producers = 0 then (cfg.C : ℤ) else 0)
        + (if s.mainPc = MainPc.done then (cfg.C : ℤ) else 0)
  hD : ∀ i < cfg.P, prodOk (cfg.sales i) (s.prods i)
  hE : ∀ j < cfg.C, ((s.conss j).pc = ConsPc.repost ∨ (s.conss j).pc = ConsPc.done) →
        s.active_producers = 0 ∧ s.count = 0
  hF : s.remLog ++ bufQueue cfg s = s.insLog
  hcnt : s.count = (s.insLog.length : ℤ) - (s.remLog.length : ℤ)
  hG : ∀ i < cfg.P, byProd i s.insLog = (s.prods i).produced
  hH : s.in_idx = (s.out_idx + s.count.toNat) % cfg.cap
  hI : 0 ≤ s.count
  hK : s.mainPc = MainPc.done → s.active_producers = 0
  hL : s.insLog.length = producedLen cfg s
  hM : s.remLog.length = consumedLen cfg s
  hOut : s.out_idx = 0 ∨ s.out_idx < cfg.cap

/-- Updating one summand of a sum over `Finset.range n`, in additive form. -/
lemma sum_update_add (f : ℕ → ℕ) {n i : ℕ} (hi : i < n) (v : ℕ) :
    (∑ x in Finset.range n, Function.update f i v x) + f i
      = (∑ x in Finset.range n, f x) + v := by
  classical
  rw [Finset.sum_update_of_mem (Finset.mem_range.mpr hi),
    Finset.sum_eq_sum_diff_singleton_add (Finset.mem_range.mpr hi) f]
  ring

/-- Updating one thread's local state, seen through a numeric observation `g`
of that state, in additive form. -/
lemma sum_update_comp {α : Type} (g : α → ℕ) (f : ℕ → α) {n i : ℕ}
    (hi : i < n) (v : α) :
    (∑ x in Finset.range n, g (Function.update f i v x)) + g (f i)
      = (∑ x in Finset.range n, g (f x)) + g v := by
  classical
  have h : ∀ x, g (Function.update f i v x)
      = Function.update (fun y => g (f y)) i (g v) x := by
    intro x
    by_cases hx : x = i
    · subst hx; simp
    · simp [Function.update_noteq hx]
  rw [Finset.sum_congr rfl fun x _ => h x]
  exact sum_update_add (fun y => g (f y)) hi (g v)

end Q12

namespace Q12

lemma mod_ne_of_lt {cap k c out : ℕ} (hk : k < c) (hc : c < cap) :
    (out + k) % cap ≠ (out + c) % cap := by
  intro h
  have hmeq : Nat.ModEq cap (out + k) (out + c) := h
  have hdvd : cap ∣ (out + c) - (out + k) :=
    (Nat.modEq_iff_dvd' (by omega)).mp hmeq
  have : cap ≤ (out + c) - (out + k) := Nat.le_of_dvd (by omega) hdvd
  omega

lemma init_prod_pc (cfg : Config) (i : ℕ) :
    ((init cfg).prods i).pc = ProdPc.finish ∨ ((init cfg).prods i).pc = ProdPc.acq := by
  simp only [init]
  by_cases hs : cfg.sales i = 0 <;> simp [hs]

lemma activeSpec_init (cfg : Config) : activeSpec cfg (init cfg) = cfg.P := by
  have h : ∀ i ∈ Finset.range cfg.P,
      (if ((init cfg).prods i).pc = ProdPc.done then 0 else 1) = 1 := by
    intro i _
    rcases init_prod_pc cfg i with h | h <;> simp [h]
  unfold activeSpec
  rw [Finset.sum_congr rfl h]
  simp

lemma pcount_init (cfg : Config) {q : ProdPc} (h1 : q ≠ ProdPc.acq)
    (h2 : q ≠ ProdPc.finish) : pcount cfg (init cfg) q = 0 := by
  refine Finset.sum_eq_zero fun i _ => ?_
  rcases init_prod_pc cfg i with h | h <;>
    · rw [h, if_neg]
      first
      | exact fun hq => h2 hq.symm
      | exact fun hq => h1 hq.symm

lemma ccount_init (cfg : Config) {q : ConsPc} (h1 : q ≠ ConsPc.wait) :
    ccount cfg (init cfg) q = 0 := by
  refine Finset.sum_eq_zero fun j _ => ?_
  rw [show ((init cfg).conss j).pc = ConsPc.wait from rfl, if_neg]
  exact fun hq => h1 hq.symm

/-- The invariant holds in the initial state (for at least one producer, as in
the source program, where `NUM_PRODUCERS` is positive). -/
lemma inv_init (cfg : Config) (hP : 1 ≤ cfg.P) : Inv cfg (init cfg) where
  hA := by rw [activeSpec_init]; rfl
  hB := by
    rw [pcount_init cfg (by simp) (by simp), ccount_init cfg (by simp)]
    show (cfg.cap : ℤ) + 0 + 0 + 0 = (cfg.cap : ℤ)
    ring
  hC := by
    rw [ccount_init cfg (by simp), ccount_init cfg (by simp),
      pcount_init cfg (by simp) (by simp)]
    have hact : (init cfg).active_producers ≠ 0 := by
      show (cfg.P : ℤ) ≠ 0
      exact_mod_cast (by omega : cfg.P ≠ 0)
    rw [if_neg hact, if_neg (by simp [init] : ¬ (init cfg).mainPc = MainPc.done)]
    have h1 : consumedLen cfg (init cfg) = 0 := Finset.sum_eq_zero fun j _ => rfl
    have h2 : producedLen cfg (init cfg) = 0 := Finset.sum_eq_zero fun i _ => rfl
    rw [h1, h2]
    show (0:ℤ) + 0 + 0 + 0 + 0 = 0 + 0
    ring
  hD := by
    intro i _
    simp only [init, prodOk]
    by_cases hs : cfg.sales i = 0 <;> simp [hs] <;> omega
  hE := by
    intro j _ hj
    rcases hj with h | h <;> simp [init] at h
  hF := by simp [init, bufQueue]
  hcnt := by simp [init]
  hG := by intro i _; simp [init, byProd]
  hH := by simp [init]
  hI := by simp [init]
  hK := by intro h; simp [init] at h
  hL := by
    simp only [init]
    exact (Finset.sum_eq_zero fun i _ => rfl).symm
  hM := by
    simp only [init]
    exact (Finset.sum_eq_zero fun j _ => rfl).symm
  hOut := Or.inl rfl

end Q12

namespace Q12

lemma le_pcount {cfg : Config} {s : State} {i : ℕ} {q : ProdPc}
    (hi : i < cfg.P) (h : (s.prods i).pc = q) : 1 ≤ pcount cfg s q := by
  unfold pcount
  have h2 : (if (s.prods i).pc = q then 1 else 0)
      ≤ ∑ x in Finset.range cfg.P, if (s.prods x).pc = q then 1 else 0 :=
    Finset.single_le_sum (f := fun x => if (s.prods x).pc = q then 1 else 0)
      (fun _ _ => Nat.zero_le _) (Finset.mem_range.mpr hi)
  rw [h] at h2
  simpa using h2

lemma le_ccount {cfg : Config} {s : State} {j : ℕ} {q : ConsPc}
    (hj : j < cfg.C) (h : (s.conss j).pc = q) : 1 ≤ ccount cfg s q := by
  unfold ccount
  have h2 : (if (s.conss j).pc = q then 1 else 0)
      ≤ ∑ x in Finset.range cfg.C, if (s.conss x).pc = q then 1 else 0 :=
    Finset.single_le_sum (f := fun x => if (s.conss x).pc = q then 1 else 0)
      (fun _ _ => Nat.zero_le _) (Finset.mem_range.mpr hj)
  rw [h] at h2
  simpa using h2

lemma activeSpec_pos {cfg : Config} {s : State} {i : ℕ}
    (hi : i < cfg.P) (h : (s.prods i).pc ≠ ProdPc.done) :
    1 ≤ activeSpec cfg s := by
  unfold activeSpec
  have h2 : (if (s.prods i).pc = ProdPc.done then 0 else 1)
      ≤ ∑ x in Finset.range cfg.P, if (s.prods x).pc = ProdPc.done then 0 else 1 :=
    Finset.single_le_sum (f := fun x => if (s.prods x).pc = ProdPc.done then 0 else 1)
      (fun _ _ => Nat.zero_le _) (Finset.mem_range.mpr hi)
  rw [if_neg h] at h2
  exact h2

lemma activeSpec_eq_zero {cfg : Config} {s : State}
    (h : ∀ i < cfg.P, (s.prods i).pc = ProdPc.done) : activeSpec cfg s = 0 :=
  Finset.sum_eq_zero fun i hix => by
    rw [h i (Finset.mem_range.mp hix), if_pos rfl]

lemma pcount_eq_zero {cfg : Config} {s : State} {q : ProdPc}
    (h : ∀ i < cfg.P, (s.prods i).pc ≠ q) : pcount cfg s q = 0 :=
  Finset.sum_eq_zero fun i hix => by
    rw [if_neg (h i (Finset.mem_range.mp hix))]

lemma ccount_eq_zero {cfg : Config} {s : State} {q : ConsPc}
    (h : ∀ j < cfg.C, (s.conss j).pc ≠ q) : ccount cfg s q = 0 :=
  Finset.sum_eq_zero fun j hjx => by
    rw [if_neg (h j (Finset.mem_range.mp hjx))]

lemma byProd_append (x : ℕ) (l1 l2 : List Item) :
    byProd x (l1 ++ l2) = byProd x l1 ++ byProd x l2 := by
  simp [byProd]

lemma byProd_single_eq (x k : ℕ) : byProd x [(x, k)] = [(x, k)] := by
  simp [byProd]

lemma byProd_single_ne {x y : ℕ} (h : y ≠ x) (k : ℕ) : byProd x [(y, k)] = [] := by
  simp [byProd, h]

lemma inv_pAcq {cfg : Config} {s : State} (hs : Inv cfg s) {i : ℕ}
    (hi : i < cfg.P) (hpc : (s.prods i).pc = ProdPc.acq) (he : 0 < s.empty_slots) :
    Inv cfg { s with empty_slots := s.empty_slots - 1,
                     prods := Function.update s.prods i
                       { s.prods i with pc := ProdPc.crit } } := by
  obtain ⟨hA, hB, hC, hD, hE, hF, hcnt, hG, hH, hI, hK, hL, hM, hOut⟩ := hs
  set t : State := { s with empty_slots := s.empty_slots - 1,
                            prods := Function.update s.prods i
                              { s.prods i with pc := ProdPc.crit } } with ht
  have hq : ∀ q : ProdPc, pcount cfg t q + (if (s.prods i).pc = q then 1 else 0)
      = pcount cfg s q + (if ProdPc.crit = q then 1 else 0) := by
    intro q
    unfold pcount
    exact sum_update_comp (fun p => if p.pc = q then 1 else 0) s.prods hi _
  have hnd : activeSpec cfg t + (if (s.prods i).pc = ProdPc.done then 0 else 1)
      = activeSpec cfg s + 1 := by
    unfold activeSpec
    exact sum_update_comp (fun p => if p.pc = ProdPc.done then 0 else 1) s.prods hi _
  have hlen : producedLen cfg t + (s.prods i).produced.length
      = producedLen cfg s + (s.prods i).produced.length := by
    unfold producedLen
    exact sum_update_comp (fun p => p.produced.length) s.prods hi _
  have hqc := hq ProdPc.crit
  have hqp := hq ProdPc.post
  rw [hpc] at hqc hqp hnd
  simp at hqc hqp hnd
  have hcc : ∀ q, ccount cfg t q = ccount cfg s q := fun _ => rfl
  have hcl : consumedLen cfg t = consumedLen cfg s := rfl
  refine ⟨?_, ?_, ?_, ?_, ?_, ?_, ?_, ?_, ?_, ?_, ?_, ?_, ?_, ?_⟩
  · show s.active_producers = (activeSpec cfg t : ℤ)
    have h2 : activeSpec cfg t = activeSpec cfg s := by omega
    rw [h2]
    exact hA
  · show ((s.empty_slots - 1 : ℕ) : ℤ) + s.count + (pcount cfg t ProdPc.crit : ℤ)
      + (ccount cfg t ConsPc.postEmpty : ℤ) = (cfg.cap : ℤ)
    rw [hcc]
    omega
  · show (s.full_slots : ℤ) + (consumedLen cfg t : ℤ) + (ccount cfg t ConsPc.crit : ℤ)
        + (ccount cfg t ConsPc.repost : ℤ) + (pcount cfg t ProdPc.post : ℤ)
      = (producedLen cfg t : ℤ)
        + (if s.active_producers = 0 then (cfg.C : ℤ) else 0)
        + (if s.mainPc = MainPc.done then (cfg.C : ℤ) else 0)
    rw [hcl, hcc, hcc]
    omega
  · intro x hx
    show prodOk (cfg.sales x) (Function.update s.prods i _ x)
    by_cases hxi : x = i
    · subst hxi
      rw [Function.update_same]
      have hold := hD x hx
      refine ⟨fun _ => hold.1 (Or.inl hpc), fun hpost => by simp at hpost,
        fun hfin => ?_⟩
      rcases hfin with h | h <;> simp at h
    · rw [Function.update_noteq hxi]
      exact hD x hx
  · intro j hj hrep
    exact hE j hj hrep
  · exact hF
  · exact hcnt
  · intro x hx
    show byProd x s.insLog = (Function.update s.prods i _ x).produced
    by_cases hxi : x = i
    · subst hxi
      rw [Function.update_same]
      exact hG x hx
    · rw [Function.update_noteq hxi]
      exact hG x hx
  · exact hH
  · exact hI
  · exact hK
  · show s.insLog.length = producedLen cfg t
    omega
  · exact hM
  · exact hOut

end Q12

namespace Q12

lemma inv_pCrit {cfg : Config} {s : State} (hs : Inv cfg s) {i : ℕ}
    (hi : i < cfg.P) (hpc : (s.prods i).pc = ProdPc.crit) :
    Inv cfg { s with
              buffer := Function.update s.buffer s.in_idx
                (i, (s.prods i).produced.length),
              in_idx := (s.in_idx + 1) % cfg.cap,
              count := s.count + 1,
              insLog := s.insLog ++ [(i, (s.prods i).produced.length)],
              prods := Function.update s.prods i
                { s.prods i with
                    pc := ProdPc.post,
                    produced := (s.prods i).produced
                      ++ [(i, (s.prods i).produced.length)] } } := by
  obtain ⟨hA, hB, hC, hD, hE, hF, hcnt, hG, hH, hI, hK, hL, hM, hOut⟩ := hs
  set t : State := { s with
              buffer := Function.update s.buffer s.in_idx
                (i, (s.prods i).produced.length),
              in_idx := (s.in_idx + 1) % cfg.cap,
              count := s.count + 1,
              insLog := s.insLog ++ [(i, (s.prods i).produced.length)],
              prods := Function.update s.prods i
                { s.prods i with
                    pc := ProdPc.post,
                    produced := (s.prods i).produced
                      ++ [(i, (s.prods i).produced.length)] } } with ht
  have hq : ∀ q : ProdPc, pcount cfg t q + (if (s.prods i).pc = q then 1 else 0)
      = pcount cfg s q + (if ProdPc.post = q then 1 else 0) := by
    intro q
    unfold pcount
    exact sum_update_comp (fun p => if p.pc = q then 1 else 0) s.prods hi _
  have hnd : activeSpec cfg t + (if (s.prods i).pc = ProdPc.done then 0 else 1)
      = activeSpec cfg s + 1 := by
    unfold activeSpec
    exact sum_update_comp (fun p => if p.pc = ProdPc.done then 0 else 1) s.prods hi _
  have hlen : producedLen cfg t + (s.prods i).produced.length
      = producedLen cfg s
        + ((s.prods i).produced ++ [(i, (s.prods i).produced.length)]).length := by
    unfold producedLen
    exact sum_update_comp (fun p => p.produced.length) s.prods hi _
  have hqc := hq ProdPc.crit
  have hqp := hq ProdPc.post
  rw [hpc] at hqc hqp hnd
  simp at hqc hqp hnd hlen
  have hcc : ∀ q, ccount cfg t q = ccount cfg s q := fun _ => rfl
  have hcl : consumedLen cfg t = consumedLen cfg s := rfl
  -- the producer inside the critical section holds an `empty_slots` permit,
  -- so the buffer is not full
  have hone : 1 ≤ pcount cfg s ProdPc.crit := le_pcount hi hpc
  have hlt : s.count.toNat < cfg.cap := by omega
  have hout : s.out_idx < cfg.cap := by rcases hOut with h | h <;> omega
  have htn : (s.count + 1).toNat = s.count.toNat + 1 := by omega
  have hbq : bufQueue cfg t
      = bufQueue cfg s ++ [(i, (s.prods i).produced.length)] := by
    show (List.range (s.count + 1).toNat).map
        (fun k => Function.update s.buffer s.in_idx (i, (s.prods i).produced.length)
          ((s.out_idx + k) % cfg.cap))
      = ((List.range s.count.toNat).map fun k => s.buffer ((s.out_idx + k) % cfg.cap))
        ++ [(i, (s.prods i).produced.length)]
    rw [htn, List.range_succ, List.map_append]
    congr 1
    · apply List.map_congr_left
      intro k hk
      rw [List.mem_range] at hk
      have hne : (s.out_idx + k) % cfg.cap ≠ s.in_idx := by
        rw [hH]
        exact mod_ne_of_lt hk hlt
      rw [Function.update_noteq hne]
    · simp only [List.map_cons, List.map_nil]
      rw [← hH, Function.update_same]
  refine ⟨?_, ?_, ?_, ?_, ?_, ?_, ?_, ?_, ?_, ?_, ?_, ?_, ?_, ?_⟩
  · show s.active_producers = (activeSpec cfg t : ℤ)
    have h2 : activeSpec cfg t = activeSpec cfg s := by omega
    rw [h2]
    exact hA
  · show (s.empty_slots : ℤ) + (s.count + 1) + (pcount cfg t ProdPc.crit : ℤ)
      + (ccount cfg t ConsPc.postEmpty : ℤ) = (cfg.cap : ℤ)
    rw [hcc]
    omega
  · show (s.full_slots : ℤ) + (consumedLen cfg t : ℤ) + (ccount cfg t ConsPc.crit : ℤ)
        + (ccount cfg t ConsPc.repost : ℤ) + (pcount cfg t ProdPc.post : ℤ)
      = (producedLen cfg t : ℤ)
        + (if s.active_producers = 0 then (cfg.C : ℤ) else 0)
        + (if s.mainPc = MainPc.done then (cfg.C : ℤ) else 0)
    rw [hcl, hcc, hcc]
    omega
  · intro x hx
    show prodOk (cfg.sales x) (Function.update s.prods i _ x)
    by_cases hxi : x = i
    · subst hxi
      rw [Function.update_same]
      have hold := hD x hx
      refine ⟨fun h => by simp at h, fun _ => ?_, fun hfin => ?_⟩
      · have h1 := hold.1 (Or.inr hpc)
        constructor
        · show ((s.prods x).produced ++ [((x : ℕ), (s.prods x).produced.length)]).length
              + (s.prods x).remaining = cfg.sales x + 1
          simp only [List.length_append, List.length_cons, List.length_nil]
          omega
        · exact h1.2
      · rcases hfin with h | h <;> simp at h
    · rw [Function.update_noteq hxi]
      exact hD x hx
  · intro j hj hrep
    exfalso
    obtain ⟨ha0, _⟩ := hE j hj hrep
    have h1 : 1 ≤ activeSpec cfg s :=
      activeSpec_pos hi (by rw [hpc]; simp)
    rw [hA] at ha0
    omega
  · show s.remLog ++ bufQueue cfg t
      = s.insLog ++ [(i, (s.prods i).produced.length)]
    rw [hbq, ← List.append_assoc, hF]
  · show s.count + 1
      = ((s.insLog ++ [(i, (s.prods i).produced.length)]).length : ℤ)
        - (s.remLog.length : ℤ)
    simp only [List.length_append, List.length_cons, List.length_nil]
    push_cast
    omega
  · intro x hx
    show byProd x (s.insLog ++ [(i, (s.prods i).produced.length)])
      = (Function.update s.prods i _ x).produced
    rw [byProd_append]
    by_cases hxi : x = i
    · subst hxi
      rw [Function.update_same, byProd_single_eq, hG x hx]
    · rw [Function.update_noteq hxi, byProd_single_ne (Ne.symm hxi), hG x hx]
      simp
  · show (s.in_idx + 1) % cfg.cap = (s.out_idx + (s.count + 1).toNat) % cfg.cap
    rw [hH, Nat.mod_add_mod, htn]
    have h2 : s.out_idx + s.count.toNat + 1 = s.out_idx + (s.count.toNat + 1) := by
      omega
    rw [h2]
  · show (0 : ℤ) ≤ s.count + 1
    omega
  · exact hK
  · show (s.insLog ++ [(i, (s.prods i).produced.length)]).length = producedLen cfg t
    simp only [List.length_append, List.length_cons, List.length_nil]
    omega
  · exact hM
  · exact hOut

end Q12

namespace Q12

lemma inv_pPost {cfg : Config} {s : State} (hs : Inv cfg s) {i : ℕ}
    (hi : i < cfg.P) (hpc : (s.prods i).pc = ProdPc.post) :
    Inv cfg { s with full_slots := s.full_slots + 1,
                     prods := Function.update s.prods i
                       { s.prods i with
                           remaining := (s.prods i).remaining - 1,
                           pc := if (s.prods i).remaining - 1 = 0
                                 then ProdPc.finish else ProdPc.acq } } := by
  obtain ⟨hA, hB, hC, hD, hE, hF, hcnt, hG, hH, hI, hK, hL, hM, hOut⟩ := hs
  set t : State := { s with
      full_slots := s.full_slots + 1,
      prods := Function.update s.prods i
        { s.prods i with
            remaining := (s.prods i).remaining - 1,
            pc := if (s.prods i).remaining - 1 = 0
                  then ProdPc.finish else ProdPc.acq } } with ht
  have hq : ∀ q : ProdPc, pcount cfg t q + (if (s.prods i).pc = q then 1 else 0)
      = pcount cfg s q
        + (if (if (s.prods i).remaining - 1 = 0
               then ProdPc.finish else ProdPc.acq) = q then 1 else 0) := by
    intro q
    unfold pcount
    exact sum_update_comp (fun p => if p.pc = q then 1 else 0) s.prods hi _
  have hnd : activeSpec cfg t + (if (s.prods i).pc = ProdPc.done then 0 else 1)
      = activeSpec cfg s
        + (if (if (s.prods i).remaining - 1 = 0
               then ProdPc.finish else ProdPc.acq) = ProdPc.done then 0 else 1) := by
    unfold activeSpec
    exact sum_update_comp (fun p => if p.pc = ProdPc.done then 0 else 1) s.prods hi _
  have hlen : producedLen cfg t + (s.prods i).produced.length
      = producedLen cfg s + (s.prods i).produced.length := by
    unfold producedLen
    exact sum_update_comp (fun p => p.produced.length) s.prods hi _
  have hqc := hq ProdPc.crit
  have hqp := hq ProdPc.post
  rw [hpc] at hqc hqp hnd
  have hne1 : (if (s.prods i).remaining - 1 = 0
      then ProdPc.finish else ProdPc.acq) ≠ ProdPc.crit := by
    by_cases hr : (s.prods i).remaining - 1 = 0 <;> simp [hr]
  have hne2 : (if (s.prods i).remaining - 1 = 0
      then ProdPc.finish else ProdPc.acq) ≠ ProdPc.post := by
    by_cases hr : (s.prods i).remaining - 1 = 0 <;> simp [hr]
  have hne3 : (if (s.prods i).remaining - 1 = 0
      then ProdPc.finish else ProdPc.acq) ≠ ProdPc.done := by
    by_cases hr : (s.prods i).remaining - 1 = 0 <;> simp [hr]
  rw [if_neg hne1] at hqc
  rw [if_neg hne2] at hqp
  rw [if_neg hne3] at hnd
  simp at hqc hqp hnd
  have hcc : ∀ q, ccount cfg t q = ccount cfg s q := fun _ => rfl
  have hcl : consumedLen cfg t = consumedLen cfg s := rfl
  refine ⟨?_, ?_, ?_, ?_, ?_, ?_, ?_, ?_, ?_, ?_, ?_, ?_, ?_, ?_⟩
  · show s.active_producers = (activeSpec cfg t : ℤ)
    have h2 : activeSpec cfg t = activeSpec cfg s := by omega
    rw [h2]
    exact hA
  · show (s.empty_slots : ℤ) + s.count + (pcount cfg t ProdPc.crit : ℤ)
      + (ccount cfg t ConsPc.postEmpty : ℤ) = (cfg.cap : ℤ)
    rw [hcc]
    omega
  · show ((s.full_slots + 1 : ℕ) : ℤ) + (consumedLen cfg t : ℤ)
        + (ccount cfg t ConsPc.crit : ℤ)
        + (ccount cfg t ConsPc.repost : ℤ) + (pcount cfg t ProdPc.post : ℤ)
      = (producedLen cfg t : ℤ)
        + (if s.active_producers = 0 then (cfg.C : ℤ) else 0)
        + (if s.mainPc = MainPc.done then (cfg.C : ℤ) else 0)
    rw [hcl, hcc, hcc]
    omega
  · intro x hx
    show prodOk (cfg.sales x) (Function.update s.prods i _ x)
    by_cases hxi : x = i
    · subst hxi
      rw [Function.update_same]
      have hold := (hD x hx).2.1 hpc
      by_cases hr : (s.prods x).remaining - 1 = 0
      · refine ⟨fun h => ?_, fun h => ?_, fun _ => ?_⟩
        · rcases h with h | h <;> · simp only [hr] at h; simp at h
        · simp only [hr] at h; simp at h
        · constructor
          · show (s.prods x).remaining - 1 = 0
            exact hr
          · show (s.prods x).produced.length = cfg.sales x
            omega
      · refine ⟨fun _ => ?_, fun h => ?_, fun h => ?_⟩
        · constructor
          · show (s.prods x).produced.length + ((s.prods x).remaining - 1)
              = cfg.sales x
            omega
          · show 1 ≤ (s.prods x).remaining - 1
            omega
        · simp only [hr] at h; simp at h
        · rcases h with h | h <;> · simp only [hr] at h; simp at h
    · rw [Function.update_noteq hxi]
      exact hD x hx
  · intro j hj hrep
    exact hE j hj hrep
  · exact hF
  · exact hcnt
  · intro x hx
    show byProd x s.insLog = (Function.update s.prods i _ x).produced
    by_cases hxi : x = i
    · subst hxi
      rw [Function.update_same]
      exact hG x hx
    · rw [Function.update_noteq hxi]
      exact hG x hx
  · exact hH
  · exact hI
  · exact hK
  · show s.insLog.length = producedLen cfg t
    omega
  · exact hM
  · exact hOut

lemma inv_pFinish {cfg : Config} {s : State} (hs : Inv cfg s) {i : ℕ}
    (hi : i < cfg.P) (hpc : (s.prods i).pc = ProdPc.finish) :
    Inv cfg { s with active_producers := s.active_producers - 1,
                     full_slots := if s.active_producers - 1 = 0
                                   then s.full_slots + cfg.C
                                   else s.full_slots,
                     prods := Function.update s.prods i
                       { s.prods i with pc := ProdPc.done } } := by
  obtain ⟨hA, hB, hC, hD, hE, hF, hcnt, hG, hH, hI, hK, hL, hM, hOut⟩ := hs
  set t : State := { s with
      active_producers := s.active_producers - 1,
      full_slots := if s.active_producers - 1 = 0
                    then s.full_slots + cfg.C
                    else s.full_slots,
      prods := Function.update s.prods i
        { s.prods i with pc := ProdPc.done } } with ht
  have hq : ∀ q : ProdPc, pcount cfg t q + (if (s.prods i).pc = q then 1 else 0)
      = pcount cfg s q + (if ProdPc.done = q then 1 else 0) := by
    intro q
    unfold pcount
    exact sum_update_comp (fun p => if p.pc = q then 1 else 0) s.prods hi _
  have hnd : activeSpec cfg t + (if (s.prods i).pc = ProdPc.done then 0 else 1)
      = activeSpec cfg s + 0 := by
    unfold activeSpec
    exact sum_update_comp (fun p => if p.pc = ProdPc.done then 0 else 1) s.prods hi _
  have hlen : producedLen cfg t + (s.prods i).produced.length
      = producedLen cfg s + (s.prods i).produced.length := by
    unfold producedLen
    exact sum_update_comp (fun p => p.produced.length) s.prods hi _
  have hqc := hq ProdPc.crit
  have hqp := hq ProdPc.post
  rw [hpc] at hqc hqp hnd
  simp at hqc hqp hnd
  have hcc : ∀ q, ccount cfg t q = ccount cfg s q := fun _ => rfl
  have hcl : consumedLen cfg t = consumedLen cfg s := rfl
  have hge : 1 ≤ activeSpec cfg s := activeSpec_pos hi (by rw [hpc]; simp)
  have hma : s.mainPc ≠ MainPc.done := by
    intro h
    have := hK h
    rw [hA] at this
    omega
  refine ⟨?_, ?_, ?_, ?_, ?_, ?_, ?_, ?_, ?_, ?_, ?_, ?_, ?_, ?_⟩
  · show s.active_producers - 1 = (activeSpec cfg t : ℤ)
    rw [hA]
    omega
  · show (s.empty_slots : ℤ) + s.count + (pcount cfg t ProdPc.crit : ℤ)
      + (ccount cfg t ConsPc.postEmpty : ℤ) = (cfg.cap : ℤ)
    rw [hcc]
    omega
  · show ((if s.active_producers - 1 = 0 then s.full_slots + cfg.C
          else s.full_slots : ℕ) : ℤ) + (consumedLen cfg t : ℤ)
        + (ccount cfg t ConsPc.crit : ℤ)
        + (ccount cfg t ConsPc.repost : ℤ) + (pcount cfg t ProdPc.post : ℤ)
      = (producedLen cfg t : ℤ)
        + (if s.active_producers - 1 = 0 then (cfg.C : ℤ) else 0)
        + (if s.mainPc = MainPc.done then (cfg.C : ℤ) else 0)
    rw [hcl, hcc, hcc, if_neg hma]
    rw [if_neg hma] at hC
    have hact : s.active_producers ≠ 0 := by
      rw [hA]; omega
    rw [if_neg hact] at hC
    by_cases ha : s.active_producers - 1 = 0
    · rw [if_pos ha, if_pos ha]
      push_cast
      omega
    · rw [if_neg ha, if_neg ha]
      omega
  · intro x hx
    show prodOk (cfg.sales x) (Function.update s.prods i _ x)
    by_cases hxi : x = i
    · subst hxi
      rw [Function.update_same]
      have hold := (hD x hx).2.2 (Or.inl hpc)
      exact ⟨fun h => by rcases h with h | h <;> simp at h,
        fun h => by simp at h, fun _ => hold⟩
    · rw [Function.update_noteq hxi]
      exact hD x hx
  · intro j hj hrep
    exfalso
    obtain ⟨ha0, _⟩ := hE j hj hrep
    rw [hA] at ha0
    omega
  · exact hF
  · exact hcnt
  · intro x hx
    show byProd x s.insLog = (Function.update s.prods i _ x).produced
    by_cases hxi : x = i
    · subst hxi
      rw [Function.update_same]
      exact hG x hx
    · rw [Function.update_noteq hxi]
      exact hG x hx
  · exact hH
  · exact hI
  · intro h
    exfalso
    have := hK h
    rw [hA] at this
    omega
  · show s.insLog.length = producedLen cfg t
    omega
  · exact hM
  · exact hOut

end Q12

namespace Q12

/-- With production still active, the number of consumers inside the removal
critical section is bounded by the buffer occupancy: each of them consumed a
`full_slots` permit, and while `active_producers > 0` the only permits ever
posted correspond to inserted items. -/
lemma crit_count_le {cfg : Config} {s : State} (hs : Inv cfg s)
    (hact : s.active_producers ≠ 0) :
    (ccount cfg s ConsPc.crit : ℤ) ≤ s.count := by
  obtain ⟨hA, hB, hC, hD, hE, hF, hcnt, hG, hH, hI, hK, hL, hM, hOut⟩ := hs
  have hrep : ccount cfg s ConsPc.repost = 0 :=
    ccount_eq_zero fun j hj hq => hact (hE j hj (Or.inl hq)).1
  have hmain : s.mainPc ≠ MainPc.done := fun h => hact (hK h)
  rw [if_neg hact, if_neg hmain] at hC
  omega

/-- A consumer that entered the removal critical section and does not see the
termination condition finds at least one item in the buffer. -/
lemma count_pos_of_take {cfg : Config} {s : State} (hs : Inv cfg s) {j : ℕ}
    (hj : j < cfg.C) (hpc : (s.conss j).pc = ConsPc.crit)
    (hg : ¬(s.active_producers = 0 ∧ s.count = 0)) : 1 ≤ s.count := by
  by_cases ha : s.active_producers = 0
  · have h1 : s.count ≠ 0 := fun h => hg ⟨ha, h⟩
    have h2 := hs.hI
    omega
  · have h1 := crit_count_le hs ha
    have h2 : 1 ≤ ccount cfg s ConsPc.crit := le_ccount hj hpc
    omega

lemma inv_cWait {cfg : Config} {s : State} (hs : Inv cfg s) {j : ℕ}
    (hj : j < cfg.C) (hpc : (s.conss j).pc = ConsPc.wait) (hf : 0 < s.full_slots) :
    Inv cfg { s with full_slots := s.full_slots - 1,
                     conss := Function.update s.conss j
                       { s.conss j with pc := ConsPc.crit } } := by
  obtain ⟨hA, hB, hC, hD, hE, hF, hcnt, hG, hH, hI, hK, hL, hM, hOut⟩ := hs
  set t : State := { s with
      full_slots := s.full_slots - 1,
      conss := Function.update s.conss j
        { s.conss j with pc := ConsPc.crit } } with ht
  have hq : ∀ q : ConsPc, ccount cfg t q + (if (s.conss j).pc = q then 1 else 0)
      = ccount cfg s q + (if ConsPc.crit = q then 1 else 0) := by
    intro q
    unfold ccount
    exact sum_update_comp (fun c => if c.pc = q then 1 else 0) s.conss hj _
  have hclen : consumedLen cfg t + (s.conss j).consumed.length
      = consumedLen cfg s + (s.conss j).consumed.length := by
    unfold consumedLen
    exact sum_update_comp (fun c => c.consumed.length) s.conss hj _
  have hqc := hq ConsPc.crit
  have hqr := hq ConsPc.repost
  have hqp := hq ConsPc.postEmpty
  rw [hpc] at hqc hqr hqp
  simp at hqc hqr hqp
  refine ⟨hA, ?_, ?_, hD, ?_, hF, hcnt, hG, hH, hI, hK, hL, ?_, hOut⟩
  · show (s.empty_slots : ℤ) + s.count + (pcount cfg t ProdPc.crit : ℤ)
      + (ccount cfg t ConsPc.postEmpty : ℤ) = (cfg.cap : ℤ)
    have hp : pcount cfg t ProdPc.crit = pcount cfg s ProdPc.crit := rfl
    rw [hp]
    omega
  · show ((s.full_slots - 1 : ℕ) : ℤ) + (consumedLen cfg t : ℤ)
        + (ccount cfg t ConsPc.crit : ℤ)
        + (ccount cfg t ConsPc.repost : ℤ) + (pcount cfg t ProdPc.post : ℤ)
      = (producedLen cfg t : ℤ)
        + (if s.active_producers = 0 then (cfg.C : ℤ) else 0)
        + (if s.mainPc = MainPc.done then (cfg.C : ℤ) else 0)
    have hp : pcount cfg t ProdPc.post = pcount cfg s ProdPc.post := rfl
    have hpl : producedLen cfg t = producedLen cfg s := rfl
    rw [hp, hpl]
    omega
  · intro x hx hrep
    by_cases hxj : x = j
    · subst hxj
      rw [show t.conss x = { s.conss x with pc := ConsPc.crit }
        from Function.update_same x _ s.conss] at hrep
      rcases hrep with h | h <;> simp at h
    · rw [show t.conss x = s.conss x
        from Function.update_noteq hxj _ s.conss] at hrep
      exact hE x hx hrep
  · show s.remLog.length = consumedLen cfg t
    omega

lemma inv_cCritExit {cfg : Config} {s : State} (hs : Inv cfg s) {j : ℕ}
    (hj : j < cfg.C) (hpc : (s.conss j).pc = ConsPc.crit)
    (hg : s.active_producers = 0 ∧ s.count = 0) :
    Inv cfg { s with conss := Function.update s.conss j
                       { s.conss j with pc := ConsPc.repost } } := by
  obtain ⟨hA, hB, hC, hD, hE, hF, hcnt, hG, hH, hI, hK, hL, hM, hOut⟩ := hs
  set t : State := { s with
      conss := Function.update s.conss j
        { s.conss j with pc := ConsPc.repost } } with ht
  have hq : ∀ q : ConsPc, ccount cfg t q + (if (s.conss j).pc = q then 1 else 0)
      = ccount cfg s q + (if ConsPc.repost = q then 1 else 0) := by
    intro q
    unfold ccount
    exact sum_update_comp (fun c => if c.pc = q then 1 else 0) s.conss hj _
  have hclen : consumedLen cfg t + (s.conss j).consumed.length
      = consumedLen cfg s + (s.conss j).consumed.length := by
    unfold consumedLen
    exact sum_update_comp (fun c => c.consumed.length) s.conss hj _
  have hqc := hq ConsPc.crit
  have hqr := hq ConsPc.repost
  have hqp := hq ConsPc.postEmpty
  rw [hpc] at hqc hqr hqp
  simp at hqc hqr hqp
  refine ⟨hA, ?_, ?_, hD, ?_, hF, hcnt, hG, hH, hI, hK, hL, ?_, hOut⟩
  · show (s.empty_slots : ℤ) + s.count + (pcount cfg t ProdPc.crit : ℤ)
      + (ccount cfg t ConsPc.postEmpty : ℤ) = (cfg.cap : ℤ)
    have hp : pcount cfg t ProdPc.crit = pcount cfg s ProdPc.crit := rfl
    rw [hp]
    omega
  · show (s.full_slots : ℤ) + (consumedLen cfg t : ℤ)
        + (ccount cfg t ConsPc.crit : ℤ)
        + (ccount cfg t ConsPc.repost : ℤ) + (pcount cfg t ProdPc.post : ℤ)
      = (producedLen cfg t : ℤ)
        + (if s.active_producers = 0 then (cfg.C : ℤ) else 0)
        + (if s.mainPc = MainPc.done then (cfg.C : ℤ) else 0)
    have hp : pcount cfg t ProdPc.post = pcount cfg s ProdPc.post := rfl
    have hpl : producedLen cfg t = producedLen cfg s := rfl
    rw [hp, hpl]
    omega
  · intro x hx hrep
    by_cases hxj : x = j
    · exact hg
    · rw [show t.conss x = s.conss x
        from Function.update_noteq hxj _ s.conss] at hrep
      exact hE x hx hrep
  · show s.remLog.length = consumedLen cfg t
    omega

lemma inv_cCritTake {cfg : Config} {s : State} (hs : Inv cfg s) {j : ℕ}
    (hj : j < cfg.C) (hpc : (s.conss j).pc = ConsPc.crit)
    (hg : ¬(s.active_producers = 0 ∧ s.count = 0)) :
    Inv cfg { s with
              out_idx := (s.out_idx + 1) % cfg.cap,
              count := s.count - 1,
              remLog := s.remLog ++ [s.buffer s.out_idx],
              conss := Function.update s.conss j
                { s.conss j with
                    pc := ConsPc.postEmpty,
                    consumed := (s.conss j).consumed ++ [s.buffer s.out_idx] } } := by
  have hpos : 1 ≤ s.count := count_pos_of_take hs hj hpc hg
  obtain ⟨hA, hB, hC, hD, hE, hF, hcnt, hG, hH, hI, hK, hL, hM, hOut⟩ := hs
  set t : State := { s with
      out_idx := (s.out_idx + 1) % cfg.cap,
      count := s.count - 1,
      remLog := s.remLog ++ [s.buffer s.out_idx],
      conss := Function.update s.conss j
        { s.conss j with
            pc := ConsPc.postEmpty,
            consumed := (s.conss j).consumed ++ [s.buffer s.out_idx] } } with ht
  have hq : ∀ q : ConsPc, ccount cfg t q + (if (s.conss j).pc = q then 1 else 0)
      = ccount cfg s q + (if ConsPc.postEmpty = q then 1 else 0) := by
    intro q
    unfold ccount
    exact sum_update_comp (fun c => if c.pc = q then 1 else 0) s.conss hj _
  have hclen : consumedLen cfg t + (s.conss j).consumed.length
      = consumedLen cfg s
        + ((s.conss j).consumed ++ [s.buffer s.out_idx]).length := by
    unfold consumedLen
    exact sum_update_comp (fun c => c.consumed.length) s.conss hj _
  have hqc := hq ConsPc.crit
  have hqr := hq ConsPc.repost
  have hqp := hq ConsPc.postEmpty
  rw [hpc] at hqc hqr hqp
  simp at hqc hqr hqp hclen
  have hcap : 0 < cfg.cap := by omega
  have hout : s.out_idx < cfg.cap := by rcases hOut with h | h <;> omega
  have hbq : bufQueue cfg s = s.buffer s.out_idx :: bufQueue cfg t := by
    show (List.range s.count.toNat).map
        (fun k => s.buffer ((s.out_idx + k) % cfg.cap))
      = s.buffer s.out_idx :: (List.range (s.count - 1).toNat).map
          (fun k => s.buffer (((s.out_idx + 1) % cfg.cap + k) % cfg.cap))
    have hn : s.count.toNat = (s.count - 1).toNat + 1 := by omega
    rw [hn, List.range_succ_eq_map, List.map_cons, List.map_map]
    congr 1
    · show s.buffer ((s.out_idx + 0) % cfg.cap) = s.buffer s.out_idx
      rw [Nat.add_zero, Nat.mod_eq_of_lt hout]
    · apply List.map_congr_left
      intro k _
      show s.buffer ((s.out_idx + (k + 1)) % cfg.cap)
        = s.buffer (((s.out_idx + 1) % cfg.cap + k) % cfg.cap)
      rw [Nat.mod_add_mod,
        show s.out_idx + 1 + k = s.out_idx + (k + 1) from by omega]
  refine ⟨hA, ?_, ?_, hD, ?_, ?_, ?_, hG, ?_, ?_, hK, hL, ?_, ?_⟩
  · show (s.empty_slots : ℤ) + (s.count - 1) + (pcount cfg t ProdPc.crit : ℤ)
      + (ccount cfg t ConsPc.postEmpty : ℤ) = (cfg.cap : ℤ)
    have hp : pcount cfg t ProdPc.crit = pcount cfg s ProdPc.crit := rfl
    rw [hp]
    omega
  · show (s.full_slots : ℤ) + (consumedLen cfg t : ℤ)
        + (ccount cfg t ConsPc.crit : ℤ)
        + (ccount cfg t ConsPc.repost : ℤ) + (pcount cfg t ProdPc.post : ℤ)
      = (producedLen cfg t : ℤ)
        + (if s.active_producers = 0 then (cfg.C : ℤ) else 0)
        + (if s.mainPc = MainPc.done then (cfg.C : ℤ) else 0)
    have hp : pcount cfg t ProdPc.post = pcount cfg s ProdPc.post := rfl
    have hpl : producedLen cfg t = producedLen cfg s := rfl
    rw [hp, hpl]
    omega
  · intro x hx hrep
    exfalso
    by_cases hxj : x = j
    · subst hxj
      rw [show t.conss x = { s.conss x with
            pc := ConsPc.postEmpty,
            consumed := (s.conss x).consumed ++ [s.buffer s.out_idx] }
        from Function.update_same x _ s.conss] at hrep
      rcases hrep with h | h <;> simp at h
    · rw [show t.conss x = s.conss x
        from Function.update_noteq hxj _ s.conss] at hrep
      exact hg (hE x hx hrep)
  · show (s.remLog ++ [s.buffer s.out_idx]) ++ bufQueue cfg t = s.insLog
    rw [List.append_assoc, List.singleton_append, ← hbq, hF]
  · show s.count - 1
      = (s.insLog.length : ℤ) - ((s.remLog ++ [s.buffer s.out_idx]).length : ℤ)
    simp only [List.length_append, List.length_cons, List.length_nil]
    push_cast
    omega
  · show s.in_idx = ((s.out_idx + 1) % cfg.cap + (s.count - 1).toNat) % cfg.cap
    rw [hH, Nat.mod_add_mod,
      show s.out_idx + 1 + (s.count - 1).toNat = s.out_idx + s.count.toNat
        from by omega]
  · show (0 : ℤ) ≤ s.count - 1
    omega
  · show (s.remLog ++ [s.buffer s.out_idx]).length = consumedLen cfg t
    simp only [List.length_append, List.length_cons, List.length_nil]
    omega
  · exact Or.inr (Nat.mod_lt _ hcap)

lemma inv_cRepost {cfg : Config} {s : State} (hs : Inv cfg s) {j : ℕ}
    (hj : j < cfg.C) (hpc : (s.conss j).pc = ConsPc.repost) :
    Inv cfg { s with full_slots := s.full_slots + 1,
                     conss := Function.update s.conss j
                       { s.conss j with pc := ConsPc.done } } := by
  obtain ⟨hA, hB, hC, hD, hE, hF, hcnt, hG, hH, hI, hK, hL, hM, hOut⟩ := hs
  set t : State := { s with
      full_slots := s.full_slots + 1,
      conss := Function.update s.conss j
        { s.conss j with pc := ConsPc.done } } with ht
  have hq : ∀ q : ConsPc, ccount cfg t q + (if (s.conss j).pc = q then 1 else 0)
      = ccount cfg s q + (if ConsPc.done = q then 1 else 0) := by
    intro q
    unfold ccount
    exact sum_update_comp (fun c => if c.pc = q then 1 else 0) s.conss hj _
  have hclen : consumedLen cfg t + (s.conss j).consumed.length
      = consumedLen cfg s + (s.conss j).consumed.length := by
    unfold consumedLen
    exact sum_update_comp (fun c => c.consumed.length) s.conss hj _
  have hqc := hq ConsPc.crit
  have hqr := hq ConsPc.repost
  have hqp := hq ConsPc.postEmpty
  rw [hpc] at hqc hqr hqp
  simp at hqc hqr hqp
  refine ⟨hA, ?_, ?_, hD, ?_, hF, hcnt, hG, hH, hI, hK, hL, ?_, hOut⟩
  · show (s.empty_slots : ℤ) + s.count + (pcount cfg t ProdPc.crit : ℤ)
      + (ccount cfg t ConsPc.postEmpty : ℤ) = (cfg.cap : ℤ)
    have hp : pcount cfg t ProdPc.crit = pcount cfg s ProdPc.crit := rfl
    rw [hp]
    omega
  · show ((s.full_slots + 1 : ℕ) : ℤ) + (consumedLen cfg t : ℤ)
        + (ccount cfg t ConsPc.crit : ℤ)
        + (ccount cfg t ConsPc.repost : ℤ) + (pcount cfg t ProdPc.post : ℤ)
      = (producedLen cfg t : ℤ)
        + (if s.active_producers = 0 then (cfg.C : ℤ) else 0)
        + (if s.mainPc = MainPc.done then (cfg.C : ℤ) else 0)
    have hp : pcount cfg t ProdPc.post = pcount cfg s ProdPc.post := rfl
    have hpl : producedLen cfg t = producedLen cfg s := rfl
    rw [hp, hpl]
    omega
  · intro x hx hrep
    by_cases hxj : x = j
    · exact hE j hj (Or.inl hpc)
    · rw [show t.conss x = s.conss x
        from Function.update_noteq hxj _ s.conss] at hrep
      exact hE x hx hrep
  · show s.remLog.length = consumedLen cfg t
    omega

lemma inv_cPostEmpty {cfg : Config} {s : State} (hs : Inv cfg s) {j : ℕ}
    (hj : j < cfg.C) (hpc : (s.conss j).pc = ConsPc.postEmpty) :
    Inv cfg { s with empty_slots := s.empty_slots + 1,
                     conss := Function.update s.conss j
                       { s.conss j with pc := ConsPc.wait } } := by
  obtain ⟨hA, hB, hC, hD, hE, hF, hcnt, hG, hH, hI, hK, hL, hM, hOut⟩ := hs
  set t : State := { s with
      empty_slots := s.empty_slots + 1,
      conss := Function.update s.conss j
        { s.conss j with pc := ConsPc.wait } } with ht
  have hq : ∀ q : ConsPc, ccount cfg t q + (if (s.conss j).pc = q then 1 else 0)
      = ccount cfg s q + (if ConsPc.wait = q then 1 else 0) := by
    intro q
    unfold ccount
    exact sum_update_comp (fun c => if c.pc = q then 1 else 0) s.conss hj _
  have hclen : consumedLen cfg t + (s.conss j).consumed.length
      = consumedLen cfg s + (s.conss j).consumed.length := by
    unfold consumedLen
    exact sum_update_comp (fun c => c.consumed.length) s.conss hj _
  have hqc := hq ConsPc.crit
  have hqr := hq ConsPc.repost
  have hqp := hq ConsPc.postEmpty
  rw [hpc] at hqc hqr hqp
  simp at hqc hqr hqp
  refine ⟨hA, ?_, ?_, hD, ?_, hF, hcnt, hG, hH, hI, hK, hL, ?_, hOut⟩
  · show ((s.empty_slots + 1 : ℕ) : ℤ) + s.count + (pcount cfg t ProdPc.crit : ℤ)
      + (ccount cfg t ConsPc.postEmpty : ℤ) = (cfg.cap : ℤ)
    have hp : pcount cfg t ProdPc.crit = pcount cfg s ProdPc.crit := rfl
    rw [hp]
    omega
  · show (s.full_slots : ℤ) + (consumedLen cfg t : ℤ)
        + (ccount cfg t ConsPc.crit : ℤ)
        + (ccount cfg t ConsPc.repost : ℤ) + (pcount cfg t ProdPc.post : ℤ)
      = (producedLen cfg t : ℤ)
        + (if s.active_producers = 0 then (cfg.C : ℤ) else 0)
        + (if s.mainPc = MainPc.done then (cfg.C : ℤ) else 0)
    have hp : pcount cfg t ProdPc.post = pcount cfg s ProdPc.post := rfl
    have hpl : producedLen cfg t = producedLen cfg s := rfl
    rw [hp, hpl]
    omega
  · intro x hx hrep
    by_cases hxj : x = j
    · subst hxj
      rw [show t.conss x = { s.conss x with pc := ConsPc.wait }
        from Function.update_same x _ s.conss] at hrep
      rcases hrep with h | h <;> simp at h
    · rw [show t.conss x = s.conss x
        from Function.update_noteq hxj _ s.conss] at hrep
      exact hE x hx hrep
  · show s.remLog.length = consumedLen cfg t
    omega

lemma inv_mainJoin {cfg : Config} {s : State} (hs : Inv cfg s)
    (hm : s.mainPc = MainPc.post)
    (hall : ∀ i < cfg.P, (s.prods i).pc = ProdPc.done) :
    Inv cfg { s with full_slots := s.full_slots + cfg.C,
                     mainPc := MainPc.done } := by
  obtain ⟨hA, hB, hC, hD, hE, hF, hcnt, hG, hH, hI, hK, hL, hM, hOut⟩ := hs
  set t : State := { s with
      full_slots := s.full_slots + cfg.C,
      mainPc := MainPc.done } with ht
  have ha0 : s.active_producers = 0 := by
    rw [hA, activeSpec_eq_zero hall]
    rfl
  refine ⟨hA, hB, ?_, hD, hE, hF, hcnt, hG, hH, hI, fun _ => ha0, hL, hM, hOut⟩
  show ((s.full_slots + cfg.C : ℕ) : ℤ) + (consumedLen cfg t : ℤ)
      + (ccount cfg t ConsPc.crit : ℤ)
      + (ccount cfg t ConsPc.repost : ℤ) + (pcount cfg t ProdPc.post : ℤ)
    = (producedLen cfg t : ℤ)
      + (if s.active_producers = 0 then (cfg.C : ℤ) else 0)
      + (if (MainPc.done : MainPc) = MainPc.done then (cfg.C : ℤ) else 0)
  have h1 : consumedLen cfg t = consumedLen cfg s := rfl
  have h2 : ∀ q, ccount cfg t q = ccount cfg s q := fun _ => rfl
  have h3 : ∀ q, pcount cfg t q = pcount cfg s q := fun _ => rfl
  have h4 : producedLen cfg t = producedLen cfg s := rfl
  rw [h1, h2, h2, h3, h4, if_pos ha0, if_pos rfl]
  rw [if_pos ha0, if_neg (by rw [hm]; simp : ¬ s.mainPc = MainPc.done)] at hC
  push_cast
  omega

end Q12

namespace Q12

/-- The invariant is preserved by every scheduling step. -/
lemma inv_step {cfg : Config} {s t : State} (hs : Inv cfg s) {a : Act}
    (h : step cfg s a = some t) : Inv cfg t := by
  cases a with
  | prod i =>
    simp only [step] at h
    split at h
    case isTrue hi =>
      cases hpc : (s.prods i).pc
      all_goals simp only [hpc] at h
      case acq =>
        split at h
        case isTrue hemp =>
          cases h
          exact inv_pAcq hs hi hpc hemp
        case isFalse => cases h
      case crit =>
        cases h
        exact inv_pCrit hs hi hpc
      case post =>
        cases h
        exact inv_pPost hs hi hpc
      case finish =>
        cases h
        exact inv_pFinish hs hi hpc
      case done => cases h
    case isFalse => cases h
  | cons j =>
    simp only [step] at h
    split at h
    case isTrue hj =>
      cases hpc : (s.conss j).pc
      all_goals simp only [hpc] at h
      case wait =>
        split at h
        case isTrue hf =>
          cases h
          exact inv_cWait hs hj hpc hf
        case isFalse => cases h
      case crit =>
        split at h
        case isTrue hg =>
          cases h
          exact inv_cCritExit hs hj hpc hg
        case isFalse hg =>
          cases h
          exact inv_cCritTake hs hj hpc hg
      case repost =>
        cases h
        exact inv_cRepost hs hj hpc
      case postEmpty =>
        cases h
        exact inv_cPostEmpty hs hj hpc
      case done => cases h
    case isFalse => cases h
  | mainJoin =>
    simp only [step] at h
    cases hm : s.mainPc
    all_goals simp only [hm] at h
    case post =>
      split at h
      case isTrue hall =>
        cases h
        exact inv_mainJoin hs hm hall
      case isFalse => cases h
    case done => cases h

/-- The invariant holds in every reachable state. -/
lemma inv_reachable {cfg : Config} (hP : 1 ≤ cfg.P) {s : State}
    (h : Reachable cfg s) : Inv cfg s := by
  induction h with
  | refl => exact inv_init cfg hP
  | tail _ hbc ih =>
    obtain ⟨a, ha⟩ := hbc
    exact inv_step ih ha

end Q12

namespace Q12

/-- Weight of a producer program point inside one loop iteration. -/
def pStage : ProdPc → ℕ
  | .acq => 3
  | .crit => 2
  | .post => 1
  | .finish => 4
  | .done => 0

/-- Weight of a consumer program point inside one loop iteration. -/
def cStage : ConsPc → ℕ
  | .wait => 0
  | .crit => 3
  | .postEmpty => 2
  | .repost => 1
  | .done => 0

/-- Weight of the main thread's position. -/
def mStage : MainPc → ℕ
  | .post => 1
  | .done => 0

/-- Total number of items the producers still have to produce. -/
def remSum (cfg : Config) (s : State) : ℕ :=
  ∑ i in Finset.range cfg.P, (s.prods i).remaining

/-- Number of consumers that have not terminated. -/
def consAlive (cfg : Config) (s : State) : ℕ :=
  ∑ j in Finset.range cfg.C, if (s.conss j).pc = ConsPc.done then 0 else 1

/-- Sum of the producers' stage weights. -/
def pStageSum (cfg : Config) (s : State) : ℕ :=
  ∑ i in Finset.range cfg.P, pStage (s.prods i).pc

/-- Sum of the consumers' stage weights. -/
def cStageSum (cfg : Config) (s : State) : ℕ :=
  ∑ j in Finset.range cfg.C, cStage (s.conss j).pc

/-- Upper bound on the `full_slots` posts still to come: one per unproduced
item, the shutdown batch of the last producer, the batch of `main`, and one
potential re-post per consumer still alive. -/
def futurePosts (cfg : Config) (s : State) : ℕ :=
  remSum cfg s + (if s.active_producers = 0 then 0 else cfg.C)
    + (if s.mainPc = MainPc.post then cfg.C else 0) + consAlive cfg s

/-- The global variant: strictly decreases on every scheduling step. -/
def meas (cfg : Config) (s : State) : ℕ :=
  5 * (s.full_slots + futurePosts cfg s) + 4 * remSum cfg s
    + pStageSum cfg s + cStageSum cfg s + mStage s.mainPc

end Q12

namespace Q12

lemma meas_pAcq {cfg : Config} {s : State} {i : ℕ}
    (hi : i < cfg.P) (hpc : (s.prods i).pc = ProdPc.acq) :
    meas cfg { s with empty_slots := s.empty_slots - 1,
                      prods := Function.update s.prods i
                        { s.prods i with pc := ProdPc.crit } } < meas cfg s := by
  set t : State := { s with
      empty_slots := s.empty_slots - 1,
      prods := Function.update s.prods i
        { s.prods i with pc := ProdPc.crit } } with ht
  have h1 : pStageSum cfg t + pStage (s.prods i).pc
      = pStageSum cfg s + pStage ProdPc.crit := by
    unfold pStageSum
    exact sum_update_comp (fun p => pStage p.pc) s.prods hi _
  have h2 : remSum cfg t + (s.prods i).remaining
      = remSum cfg s + (s.prods i).remaining := by
    unfold remSum
    exact sum_update_comp (fun p => p.remaining) s.prods hi _
  rw [hpc] at h1
  simp only [pStage] at h1
  have e1 : cStageSum cfg t = cStageSum cfg s := rfl
  have e2 : consAlive cfg t = consAlive cfg s := rfl
  have e3 : t.full_slots = s.full_slots := rfl
  have e4 : t.active_producers = s.active_producers := rfl
  have e5 : t.mainPc = s.mainPc := rfl
  unfold meas futurePosts
  rw [e1, e2, e3, e4, e5]
  omega

lemma meas_pCrit {cfg : Config} {s : State} {i : ℕ}
    (hi : i < cfg.P) (hpc : (s.prods i).pc = ProdPc.crit) :
    meas cfg { s with
               buffer := Function.update s.buffer s.in_idx
                 (i, (s.prods i).produced.length),
               in_idx := (s.in_idx + 1) % cfg.cap,
               count := s.count + 1,
               insLog := s.insLog ++ [(i, (s.prods i).produced.length)],
               prods := Function.update s.prods i
                 { s.prods i with
                     pc := ProdPc.post,
                     produced := (s.prods i).produced
                       ++ [(i, (s.prods i).produced.length)] } } < meas cfg s := by
  set t : State := { s with
      buffer := Function.update s.buffer s.in_idx
        (i, (s.prods i).produced.length),
      in_idx := (s.in_idx + 1) % cfg.cap,
      count := s.count + 1,
      insLog := s.insLog ++ [(i, (s.prods i).produced.length)],
      prods := Function.update s.prods i
        { s.prods i with
            pc := ProdPc.post,
            produced := (s.prods i).produced
              ++ [(i, (s.prods i).produced.length)] } } with ht
  have h1 : pStageSum cfg t + pStage (s.prods i).pc
      = pStageSum cfg s + pStage ProdPc.post := by
    unfold pStageSum
    exact sum_update_comp (fun p => pStage p.pc) s.prods hi _
  have h2 : remSum cfg t + (s.prods i).remaining
      = remSum cfg s + (s.prods i).remaining := by
    unfold remSum
    exact sum_update_comp (fun p => p.remaining) s.prods hi _
  rw [hpc] at h1
  simp only [pStage] at h1
  have e1 : cStageSum cfg t = cStageSum cfg s := rfl
  have e2 : consAlive cfg t = consAlive cfg s := rfl
  have e3 : t.full_slots = s.full_slots := rfl
  have e4 : t.active_producers = s.active_producers := rfl
  have e5 : t.mainPc = s.mainPc := rfl
  unfold meas futurePosts
  rw [e1, e2, e3, e4, e5]
  omega

lemma meas_pPost {cfg : Config} {s : State} (hs : Inv cfg s) {i : ℕ}
    (hi : i < cfg.P) (hpc : (s.prods i).pc = ProdPc.post) :
    meas cfg { s with full_slots := s.full_slots + 1,
                      prods := Function.update s.prods i
                        { s.prods i with
                            remaining := (s.prods i).remaining - 1,
                            pc := if (s.prods i).remaining - 1 = 0
                                  then ProdPc.finish else ProdPc.acq } }
      < meas cfg s := by
  have hrem : 1 ≤ (s.prods i).remaining := ((hs.hD i hi).2.1 hpc).2
  set t : State := { s with
      full_slots := s.full_slots + 1,
      prods := Function.update s.prods i
        { s.prods i with
            remaining := (s.prods i).remaining - 1,
            pc := if (s.prods i).remaining - 1 = 0
                  then ProdPc.finish else ProdPc.acq } } with ht
  have h1 : pStageSum cfg t + pStage (s.prods i).pc
      = pStageSum cfg s
        + pStage (if (s.prods i).remaining - 1 = 0
                  then ProdPc.finish else ProdPc.acq) := by
    unfold pStageSum
    exact sum_update_comp (fun p => pStage p.pc) s.prods hi _
  have h2 : remSum cfg t + (s.prods i).remaining
      = remSum cfg s + ((s.prods i).remaining - 1) := by
    unfold remSum
    exact sum_update_comp (fun p => p.remaining) s.prods hi _
  rw [hpc] at h1
  have e1 : cStageSum cfg t = cStageSum cfg s := rfl
  have e2 : consAlive cfg t = consAlive cfg s := rfl
  have e3 : t.full_slots = s.full_slots + 1 := rfl
  have e4 : t.active_producers = s.active_producers := rfl
  have e5 : t.mainPc = s.mainPc := rfl
  unfold meas futurePosts
  rw [e1, e2, e3, e4, e5]
  by_cases hr : (s.prods i).remaining - 1 = 0
  · rw [if_pos hr] at h1
    simp only [pStage] at h1
    omega
  · rw [if_neg hr] at h1
    simp only [pStage] at h1
    omega

lemma meas_pFinish {cfg : Config} {s : State} (hs : Inv cfg s) {i : ℕ}
    (hi : i < cfg.P) (hpc : (s.prods i).pc = ProdPc.finish) :
    meas cfg { s with active_producers := s.active_producers - 1,
                      full_slots := if s.active_producers - 1 = 0
                                    then s.full_slots + cfg.C
                                    else s.full_slots,
                      prods := Function.update s.prods i
                        { s.prods i with pc := ProdPc.done } } < meas cfg s := by
  have hge : 1 ≤ activeSpec cfg s := activeSpec_pos hi (by rw [hpc]; simp)
  have hact : ¬ s.active_producers = 0 := by
    rw [hs.hA]
    omega
  set t : State := { s with
      active_producers := s.active_producers - 1,
      full_slots := if s.active_producers - 1 = 0
                    then s.full_slots + cfg.C
                    else s.full_slots,
      prods := Function.update s.prods i
        { s.prods i with pc := ProdPc.done } } with ht
  have h1 : pStageSum cfg t + pStage (s.prods i).pc
      = pStageSum cfg s + pStage ProdPc.done := by
    unfold pStageSum
    exact sum_update_comp (fun p => pStage p.pc) s.prods hi _
  have h2 : remSum cfg t + (s.prods i).remaining
      = remSum cfg s + (s.prods i).remaining := by
    unfold remSum
    exact sum_update_comp (fun p => p.remaining) s.prods hi _
  rw [hpc] at h1
  simp only [pStage] at h1
  have e1 : cStageSum cfg t = cStageSum cfg s := rfl
  have e2 : consAlive cfg t = consAlive cfg s := rfl
  have e3 : t.full_slots = if s.active_producers - 1 = 0
      then s.full_slots + cfg.C else s.full_slots := rfl
  have e4 : t.active_producers = s.active_producers - 1 := rfl
  have e5 : t.mainPc = s.mainPc := rfl
  unfold meas futurePosts
  rw [e1, e2, e3, e4, e5, if_neg hact]
  by_cases ha : s.active_producers - 1 = 0
  · rw [if_pos ha, if_pos ha]
    omega
  · rw [if_neg ha, if_neg ha]
    omega

lemma meas_cWait {cfg : Config} {s : State} {j : ℕ}
    (hj : j < cfg.C) (hpc : (s.conss j).pc = ConsPc.wait) (hf : 0 < s.full_slots) :
    meas cfg { s with full_slots := s.full_slots - 1,
                      conss := Function.update s.conss j
                        { s.conss j with pc := ConsPc.crit } } < meas cfg s := by
  set t : State := { s with
      full_slots := s.full_slots - 1,
      conss := Function.update s.conss j
        { s.conss j with pc := ConsPc.crit } } with ht
  have h1 : cStageSum cfg t + cStage (s.conss j).pc
      = cStageSum cfg s + cStage ConsPc.crit := by
    unfold cStageSum
    exact sum_update_comp (fun c => cStage c.pc) s.conss hj _
  have h2 : consAlive cfg t + (if (s.conss j).pc = ConsPc.done then 0 else 1)
      = consAlive cfg s + (if ConsPc.crit = ConsPc.done then 0 else 1) := by
    unfold consAlive
    exact sum_update_comp (fun c => if c.pc = ConsPc.done then 0 else 1) s.conss hj _
  rw [hpc] at h1 h2
  simp only [cStage] at h1
  simp at h2
  have e1 : pStageSum cfg t = pStageSum cfg s := rfl
  have e2 : remSum cfg t = remSum cfg s := rfl
  have e3 : t.full_slots = s.full_slots - 1 := rfl
  have e4 : t.active_producers = s.active_producers := rfl
  have e5 : t.mainPc = s.mainPc := rfl
  unfold meas futurePosts
  rw [e1, e2, e3, e4, e5]
  omega

lemma meas_cCritExit {cfg : Config} {s : State} {j : ℕ}
    (hj : j < cfg.C) (hpc : (s.conss j).pc = ConsPc.crit) :
    meas cfg { s with conss := Function.update s.conss j
                        { s.conss j with pc := ConsPc.repost } } < meas cfg s := by
  set t : State := { s with
      conss := Function.update s.conss j
        { s.conss j with pc := ConsPc.repost } } with ht
  have h1 : cStageSum cfg t + cStage (s.conss j).pc
      = cStageSum cfg s + cStage ConsPc.repost := by
    unfold cStageSum
    exact sum_update_comp (fun c => cStage c.pc) s.conss hj _
  have h2 : consAlive cfg t + (if (s.conss j).pc = ConsPc.done then 0 else 1)
      = consAlive cfg s + (if ConsPc.repost = ConsPc.done then 0 else 1) := by
    unfold consAlive
    exact sum_update_comp (fun c => if c.pc = ConsPc.done then 0 else 1) s.conss hj _
  rw [hpc] at h1 h2
  simp only [cStage] at h1
  simp at h2
  have e1 : pStageSum cfg t = pStageSum cfg s := rfl
  have e2 : remSum cfg t = remSum cfg s := rfl
  have e3 : t.full_slots = s.full_slots := rfl
  have e4 : t.active_producers = s.active_producers := rfl
  have e5 : t.mainPc = s.mainPc := rfl
  unfold meas futurePosts
  rw [e1, e2, e3, e4, e5]
  omega

lemma meas_cCritTake {cfg : Config} {s : State} {j : ℕ}
    (hj : j < cfg.C) (hpc : (s.conss j).pc = ConsPc.crit) :
    meas cfg { s with
               out_idx := (s.out_idx + 1) % cfg.cap,
               count := s.count - 1,
               remLog := s.remLog ++ [s.buffer s.out_idx],
               conss := Function.update s.conss j
                 { s.conss j with
                     pc := ConsPc.postEmpty,
                     consumed := (s.conss j).consumed ++ [s.buffer s.out_idx] } }
      < meas cfg s := by
  set t : State := { s with
      out_idx := (s.out_idx + 1) % cfg.cap,
      count := s.count - 1,
      remLog := s.remLog ++ [s.buffer s.out_idx],
      conss := Function.update s.conss j
        { s.conss j with
            pc := ConsPc.postEmpty,
            consumed := (s.conss j).consumed ++ [s.buffer s.out_idx] } } with ht
  have h1 : cStageSum cfg t + cStage (s.conss j).pc
      = cStageSum cfg s + cStage ConsPc.postEmpty := by
    unfold cStageSum
    exact sum_update_comp (fun c => cStage c.pc) s.conss hj _
  have h2 : consAlive cfg t + (if (s.conss j).pc = ConsPc.done then 0 else 1)
      = consAlive cfg s + (if ConsPc.postEmpty = ConsPc.done then 0 else 1) := by
    unfold consAlive
    exact sum_update_comp (fun c => if c.pc = ConsPc.done then 0 else 1) s.conss hj _
  rw [hpc] at h1 h2
  simp only [cStage] at h1
  simp at h2
  have e1 : pStageSum cfg t = pStageSum cfg s := rfl
  have e2 : remSum cfg t = remSum cfg s := rfl
  have e3 : t.full_slots = s.full_slots := rfl
  have e4 : t.active_producers = s.active_producers := rfl
  have e5 : t.mainPc = s.mainPc := rfl
  unfold meas futurePosts
  rw [e1, e2, e3, e4, e5]
  omega

lemma meas_cRepost {cfg : Config} {s : State} {j : ℕ}
    (hj : j < cfg.C) (hpc : (s.conss j).pc = ConsPc.repost) :
    meas cfg { s with full_slots := s.full_slots + 1,
                      conss := Function.update s.conss j
                        { s.conss j with pc := ConsPc.done } } < meas cfg s := by
  set t : State := { s with
      full_slots := s.full_slots + 1,
      conss := Function.update s.conss j
        { s.conss j with pc := ConsPc.done } } with ht
  have h1 : cStageSum cfg t + cStage (s.conss j).pc
      = cStageSum cfg s + cStage ConsPc.done := by
    unfold cStageSum
    exact sum_update_comp (fun c => cStage c.pc) s.conss hj _
  have h2 : consAlive cfg t + (if (s.conss j).pc = ConsPc.done then 0 else 1)
      = consAlive cfg s + (if ConsPc.done = ConsPc.done then 0 else 1) := by
    unfold consAlive
    exact sum_update_comp (fun c => if c.pc = ConsPc.done then 0 else 1) s.conss hj _
  rw [hpc] at h1 h2
  simp only [cStage] at h1
  simp at h2
  have e1 : pStageSum cfg t = pStageSum cfg s := rfl
  have e2 : remSum cfg t = remSum cfg s := rfl
  have e3 : t.full_slots = s.full_slots + 1 := rfl
  have e4 : t.active_producers = s.active_producers := rfl
  have e5 : t.mainPc = s.mainPc := rfl
  unfold meas futurePosts
  rw [e1, e2, e3, e4, e5]
  omega

lemma meas_cPostEmpty {cfg : Config} {s : State} {j : ℕ}
    (hj : j < cfg.C) (hpc : (s.conss j).pc = ConsPc.postEmpty) :
    meas cfg { s with empty_slots := s.empty_slots + 1,
                      conss := Function.update s.conss j
                        { s.conss j with pc := ConsPc.wait } } < meas cfg s := by
  set t : State := { s with
      empty_slots := s.empty_slots + 1,
      conss := Function.update s.conss j
        { s.conss j with pc := ConsPc.wait } } with ht
  have h1 : cStageSum cfg t + cStage (s.conss j).pc
      = cStageSum cfg s + cStage ConsPc.wait := by
    unfold cStageSum
    exact sum_update_comp (fun c => cStage c.pc) s.conss hj _
  have h2 : consAlive cfg t + (if (s.conss j).pc = ConsPc.done then 0 else 1)
      = consAlive cfg s + (if ConsPc.wait = ConsPc.done then 0 else 1) := by
    unfold consAlive
    exact sum_update_comp (fun c => if c.pc = ConsPc.done then 0 else 1) s.conss hj _
  rw [hpc] at h1 h2
  simp only [cStage] at h1
  simp at h2
  have e1 : pStageSum cfg t = pStageSum cfg s := rfl
  have e2 : remSum cfg t = remSum cfg s := rfl
  have e3 : t.full_slots = s.full_slots := rfl
  have e4 : t.active_producers = s.active_producers := rfl
  have e5 : t.mainPc = s.mainPc := rfl
  unfold meas futurePosts
  rw [e1, e2, e3, e4, e5]
  omega

lemma meas_mainJoin {cfg : Config} {s : State} (hm : s.mainPc = MainPc.post) :
    meas cfg { s with full_slots := s.full_slots + cfg.C,
                      mainPc := MainPc.done } < meas cfg s := by
  set t : State := { s with
      full_slots := s.full_slots + cfg.C,
      mainPc := MainPc.done } with ht
  have e1 : pStageSum cfg t = pStageSum cfg s := rfl
  have e2 : remSum cfg t = remSum cfg s := rfl
  have e3 : cStageSum cfg t = cStageSum cfg s := rfl
  have e4 : consAlive cfg t = consAlive cfg s := rfl
  have e5 : t.full_slots = s.full_slots + cfg.C := rfl
  have e6 : t.active_producers = s.active_producers := rfl
  have e7 : t.mainPc = MainPc.done := rfl
  unfold meas futurePosts
  rw [e1, e2, e3, e4, e5, e6, e7, hm]
  simp only [mStage]
  simp
  omega

/-- Every scheduling step strictly decreases the variant. -/
lemma meas_step {cfg : Config} {s t : State} (hs : Inv cfg s) {a : Act}
    (h : step cfg s a = some t) : meas cfg t < meas cfg s := by
  cases a with
  | prod i =>
    simp only [step] at h
    split at h
    case isTrue hi =>
      cases hpc : (s.prods i).pc
      all_goals simp only [hpc] at h
      case acq =>
        split at h
        case isTrue hemp =>
          cases h
          exact meas_pAcq hi hpc
        case isFalse => cases h
      case crit =>
        cases h
        exact meas_pCrit hi hpc
      case post =>
        cases h
        exact meas_pPost hs hi hpc
      case finish =>
        cases h
        exact meas_pFinish hs hi hpc
      case done => cases h
    case isFalse => cases h
  | cons j =>
    simp only [step] at h
    split at h
    case isTrue hj =>
      cases hpc : (s.conss j).pc
      all_goals simp only [hpc] at h
      case wait =>
        split at h
        case isTrue hf =>
          cases h
          exact meas_cWait hj hpc hf
        case isFalse => cases h
      case crit =>
        split at h
        case isTrue hg =>
          cases h
          exact meas_cCritExit hj hpc
        case isFalse hg =>
          cases h
          exact meas_cCritTake hj hpc
      case repost =>
        cases h
        exact meas_cRepost hj hpc
      case postEmpty =>
        cases h
        exact meas_cPostEmpty hj hpc
      case done => cases h
    case isFalse => cases h
  | mainJoin =>
    simp only [step] at h
    cases hm : s.mainPc
    all_goals simp only [hm] at h
    case post =>
      split at h
      case isTrue hall =>
        cases h
        exact meas_mainJoin hm
      case isFalse => cases h
    case done => cases h

end Q12

namespace Q12

/-- Progress: with at least one consumer and a positive capacity, a state in
which no thread can take a step is a state in which every thread has
terminated.  This is the deadlock-freedom core: the shutdown permits posted by
the last producer and by `main`, together with the consumers' re-posts, keep
`full_slots` positive whenever a consumer still has to terminate. -/
lemma progress {cfg : Config} {s : State} (hs : Inv cfg s)
    (hC : 1 ≤ cfg.C) (hcap : 1 ≤ cfg.cap) (hnd : ¬ AllDone cfg s) :
    ∃ a t, step cfg s a = some t := by
  obtain ⟨hA, hB, hC', hD, hE, hF, hcnt, hG, hH, hI, hK, hL, hM, hOut⟩ := hs
  by_cases hp1 : ∃ i, i < cfg.P ∧ ((s.prods i).pc = ProdPc.crit
      ∨ (s.prods i).pc = ProdPc.post ∨ (s.prods i).pc = ProdPc.finish)
  · obtain ⟨i, hi, hpc⟩ := hp1
    rcases hpc with h | h | h
    · exact ⟨Act.prod i, Option.isSome_iff_exists.mp (by simp [step, hi, h])⟩
    · exact ⟨Act.prod i, Option.isSome_iff_exists.mp (by simp [step, hi, h])⟩
    · exact ⟨Act.prod i, Option.isSome_iff_exists.mp (by simp [step, hi, h])⟩
  by_cases hc1 : ∃ j, j < cfg.C ∧ ((s.conss j).pc = ConsPc.crit
      ∨ (s.conss j).pc = ConsPc.repost ∨ (s.conss j).pc = ConsPc.postEmpty)
  · obtain ⟨j, hj, hpc⟩ := hc1
    rcases hpc with h | h | h
    · by_cases hg : s.active_producers = 0 ∧ s.count = 0
      · exact ⟨Act.cons j, Option.isSome_iff_exists.mp (by simp [step, hj, h, hg])⟩
      · exact ⟨Act.cons j, Option.isSome_iff_exists.mp (by simp [step, hj, h, hg])⟩
    · exact ⟨Act.cons j, Option.isSome_iff_exists.mp (by simp [step, hj, h])⟩
    · exact ⟨Act.cons j, Option.isSome_iff_exists.mp (by simp [step, hj, h])⟩
  by_cases hm1 : s.mainPc = MainPc.post ∧ ∀ i < cfg.P, (s.prods i).pc = ProdPc.done
  · obtain ⟨hmp, hall⟩ := hm1
    refine ⟨Act.mainJoin, Option.isSome_iff_exists.mp ?_⟩
    simp only [step, hmp]
    rw [if_pos hall]
    rfl
  -- every producer is at `acq` or `done`, every consumer at `wait` or `done`
  have hclass : ∀ i, i < cfg.P →
      (s.prods i).pc = ProdPc.acq ∨ (s.prods i).pc = ProdPc.done := by
    intro i hi
    cases hpc : (s.prods i).pc
    case acq => exact Or.inl rfl
    case crit => exact absurd ⟨i, hi, Or.inl hpc⟩ hp1
    case post => exact absurd ⟨i, hi, Or.inr (Or.inl hpc)⟩ hp1
    case finish => exact absurd ⟨i, hi, Or.inr (Or.inr hpc)⟩ hp1
    case done => exact Or.inr rfl
  have hcclass : ∀ j, j < cfg.C →
      (s.conss j).pc = ConsPc.wait ∨ (s.conss j).pc = ConsPc.done := by
    intro j hj
    cases hpc : (s.conss j).pc
    case wait => exact Or.inl rfl
    case crit => exact absurd ⟨j, hj, Or.inl hpc⟩ hc1
    case repost => exact absurd ⟨j, hj, Or.inr (Or.inl hpc)⟩ hc1
    case postEmpty => exact absurd ⟨j, hj, Or.inr (Or.inr hpc)⟩ hc1
    case done => exact Or.inr rfl
  have hz1 : ccount cfg s ConsPc.crit = 0 := ccount_eq_zero fun j hj h => by
    rcases hcclass j hj with h1 | h1 <;> rw [h1] at h <;> simp at h
  have hz2 : ccount cfg s ConsPc.repost = 0 := ccount_eq_zero fun j hj h => by
    rcases hcclass j hj with h1 | h1 <;> rw [h1] at h <;> simp at h
  have hz3 : ccount cfg s ConsPc.postEmpty = 0 := ccount_eq_zero fun j hj h => by
    rcases hcclass j hj with h1 | h1 <;> rw [h1] at h <;> simp at h
  have hz4 : pcount cfg s ProdPc.post = 0 := pcount_eq_zero fun i hi h => by
    rcases hclass i hi with h1 | h1 <;> rw [h1] at h <;> simp at h
  have hz5 : pcount cfg s ProdPc.crit = 0 := pcount_eq_zero fun i hi h => by
    rcases hclass i hi with h1 | h1 <;> rw [h1] at h <;> simp at h
  by_cases hall : ∀ i < cfg.P, (s.prods i).pc = ProdPc.done
  · -- all producers finished; main has already posted; some consumer remains
    have hmain : s.mainPc = MainPc.done := by
      cases hmv : s.mainPc
      · exact absurd ⟨hmv, hall⟩ hm1
      · rfl
    have ha0 : s.active_producers = 0 := by
      rw [hA, activeSpec_eq_zero hall]
      rfl
    have hj1 : ¬ ∀ j < cfg.C, (s.conss j).pc = ConsPc.done :=
      fun h => hnd ⟨hall, h, hmain⟩
    push_neg at hj1
    obtain ⟨j, hj, hjnd⟩ := hj1
    have hjw : (s.conss j).pc = ConsPc.wait := by
      rcases hcclass j hj with h1 | h1
      · exact h1
      · exact absurd h1 hjnd
    rw [if_pos ha0, if_pos hmain, hz1, hz2, hz4] at hC'
    have hfull : 0 < s.full_slots := by
      have h2 : (0:ℤ) ≤ s.count := hI
      omega
    exact ⟨Act.cons j, Option.isSome_iff_exists.mp (by simp [step, hj, hjw, hfull])⟩
  · -- some producer still active: it is blocked at `sem_wait(empty_slots)`
    -- only if the buffer is full, and then a consumer can run
    push_neg at hall
    obtain ⟨i, hi, hidne⟩ := hall
    have hiacq : (s.prods i).pc = ProdPc.acq := by
      rcases hclass i hi with h1 | h1
      · exact h1
      · exact absurd h1 hidne
    by_cases hemp : 0 < s.empty_slots
    · exact ⟨Act.prod i, Option.isSome_iff_exists.mp (by simp [step, hi, hiacq, hemp])⟩
    have hge : 1 ≤ activeSpec cfg s := activeSpec_pos hi hidne
    have hact : ¬ s.active_producers = 0 := by
      rw [hA]
      omega
    have hmain : s.mainPc ≠ MainPc.done := fun h => hact (hK h)
    -- all consumers are at `wait` (none can have exited while producers run)
    have hjw : (s.conss 0).pc = ConsPc.wait := by
      rcases hcclass 0 hC with h1 | h1
      · exact h1
      · exact absurd (hE 0 hC (Or.inr h1)).1 hact
    rw [if_neg hact, if_neg hmain, hz1, hz2, hz4] at hC'
    rw [hz3, hz5] at hB
    have hfull : 0 < s.full_slots := by
      have h2 : s.empty_slots = 0 := by omega
      omega
    have hC0 : 0 < cfg.C := hC
    exact ⟨Act.cons 0, Option.isSome_iff_exists.mp (by simp [step, hC0, hjw, hfull])⟩

end Q12

namespace Q12

/-- `runList` executes a list of scheduling actions in order. -/
def runList (cfg : Config) (acts : List Act) (s : State) : Option State :=
  acts.foldlM (fun s a => step cfg s a) s

lemma runList_reachable (cfg : Config) :
    ∀ (acts : List Act) (s t : State), runList cfg acts s = some t →
      Relation.ReflTransGen (Step cfg) s t := by
  intro acts
  induction acts with
  | nil =>
    intro s t h
    have h2 : some s = some t := h
    cases h2
    exact Relation.ReflTransGen.refl
  | cons a as ih =>
    intro s t h
    simp only [runList, List.foldlM_cons] at h
    cases hsa : step cfg s a with
    | none => rw [hsa] at h; simp at h
    | some s2 =>
      rw [hsa] at h
      exact Relation.ReflTransGen.head ⟨a, hsa⟩ (ih s2 t h)

/-- C1: the no-deadlock / termination theorem.  (i) There is no infinite
scheduling sequence from the initial state: every run halts after finitely
many steps.  (ii) Any reachable state from which no thread can step is a
state where all producers, all consumers and main's post loop have
terminated — in particular no consumer is blocked forever in
`sem_wait(&full_slots)` after `active_producers` reached 0 with an empty
buffer. -/
theorem C1_termination_no_deadlock (cfg : Config)
    (hP : 1 ≤ cfg.P) (hC : 1 ≤ cfg.C) (hcap : 1 ≤ cfg.cap) :
    (∀ f : ℕ → State, f 0 = init cfg →
        (∀ k, Step cfg (f k) (f (k + 1))) → False)
      ∧ (∀ s, Reachable cfg s → (¬ ∃ t, Step cfg s t) → AllDone cfg s) := by
  constructor
  · intro f h0 hstep
    have hreach : ∀ k, Reachable cfg (f k) := by
      intro k
      induction k with
      | zero =>
        rw [h0]
        exact Relation.ReflTransGen.refl
      | succ n ih => exact Relation.ReflTransGen.tail ih (hstep n)
    have hdec : ∀ k, meas cfg (f (k + 1)) < meas cfg (f k) := by
      intro k
      obtain ⟨a, ha⟩ := hstep k
      exact meas_step (inv_reachable hP (hreach k)) ha
    have hbound : ∀ k, meas cfg (f k) + k ≤ meas cfg (f 0) := by
      intro k
      induction k with
      | zero => omega
      | succ n ih =>
        have := hdec n
        omega
    have := hbound (meas cfg (f 0) + 1)
    omega
  · intro s hre hstuck
    by_contra hnd
    obtain ⟨a, t, ha⟩ := progress (inv_reachable hP hre) hC hcap hnd
    exact hstuck ⟨t, a, ha⟩

/-- C2: conservation.  In any complete run (a reachable state where every
worker terminated), the total number of items the producers inserted equals
the total number of items the consumers removed. -/
theorem C2_conservation (cfg : Config) (hP : 1 ≤ cfg.P) (hC : 1 ≤ cfg.C)
    {s : State} (hre : Reachable cfg s) (hdone : AllDone cfg s) :
    producedLen cfg s = consumedLen cfg s := by
  obtain ⟨hA, hB, hC', hD, hE, hF, hcnt, hG, hH, hI, hK, hL, hM, hOut⟩ :=
    inv_reachable hP hre
  obtain ⟨hpd, hcd, hmd⟩ := hdone
  have h0 : s.count = 0 := (hE 0 hC (Or.inr (hcd 0 hC))).2
  omega

/-- C3: bounded occupancy.  In every reachable state `0 ≤ count ≤ capacity`,
and a producer inside the insertion critical section (about to write) always
finds `count < capacity`, so `buffer[in_idx]` never holds an unread item. -/
theorem C3_bounded_occupancy (cfg : Config) (hP : 1 ≤ cfg.P)
    {s : State} (hre : Reachable cfg s) :
    0 ≤ s.count ∧ s.count ≤ (cfg.cap : ℤ)
      ∧ (∀ i < cfg.P, (s.prods i).pc = ProdPc.crit → s.count < (cfg.cap : ℤ)) := by
  obtain ⟨hA, hB, hC', hD, hE, hF, hcnt, hG, hH, hI, hK, hL, hM, hOut⟩ :=
    inv_reachable hP hre
  refine ⟨hI, by omega, ?_⟩
  intro i hi hpc
  have := le_pcount hi hpc
  omega

/-- C4: the shutdown path.  When a consumer's `sem_wait(&full_slots)` has
returned (it is inside the critical section) and it observes
`active_producers == 0 && count == 0` under the lock, it removes nothing,
re-posts exactly one `full_slots` permit, and terminates; buffer, `in_idx`,
`out_idx`, `count` and the removal log are unchanged. -/
theorem C4_shutdown_repost (cfg : Config) {s : State} {j : ℕ}
    (hj : j < cfg.C) (hpc : (s.conss j).pc = ConsPc.crit)
    (ha : s.active_producers = 0) (hc : s.count = 0) :
    ∃ s1 s2, step cfg s (Act.cons j) = some s1
      ∧ step cfg s1 (Act.cons j) = some s2
      ∧ (s1.conss j).pc = ConsPc.repost
      ∧ s2.full_slots = s.full_slots + 1
      ∧ (s2.conss j).pc = ConsPc.done
      ∧ (s2.conss j).consumed = (s.conss j).consumed
      ∧ s2.buffer = s.buffer ∧ s2.in_idx = s.in_idx ∧ s2.out_idx = s.out_idx
      ∧ s2.count = s.count ∧ s2.remLog = s.remLog := by
  set s1 : State := { s with
      conss := Function.update s.conss j
        { s.conss j with pc := ConsPc.repost } } with hs1
  have hpc1 : (s1.conss j).pc = ConsPc.repost := by
    show (Function.update s.conss j
      { s.conss j with pc := ConsPc.repost } j).pc = ConsPc.repost
    rw [Function.update_same]
  set s2 : State := { s1 with
      full_slots := s1.full_slots + 1,
      conss := Function.update s1.conss j
        { s1.conss j with pc := ConsPc.done } } with hs2
  have hpc2 : (s2.conss j).pc = ConsPc.done := by
    show (Function.update s1.conss j
      { s1.conss j with pc := ConsPc.done } j).pc = ConsPc.done
    rw [Function.update_same]
  have hcons2 : (s2.conss j).consumed = (s.conss j).consumed := by
    show (Function.update s1.conss j
      { s1.conss j with pc := ConsPc.done } j).consumed = (s.conss j).consumed
    rw [Function.update_same]
    show (s1.conss j).consumed = (s.conss j).consumed
    show (Function.update s.conss j
      { s.conss j with pc := ConsPc.repost } j).consumed = (s.conss j).consumed
    rw [Function.update_same]
  refine ⟨s1, s2, ?_, ?_, hpc1, rfl, hpc2, hcons2, rfl, rfl, rfl, rfl, rfl⟩
  · simp [step, hj, hpc, ha, hc, hs1]
  · simp [step, hj, hpc1, hs2]

/-- C5: the last producer's shutdown broadcast.  A producer executing its
completion critical section decrements `active_producers`; if it thereby
reaches 0 it posts exactly `NUM_CONSUMERS` wake permits (one per consumer —
not one per item and not a fixed constant), and otherwise it posts none. -/
theorem C5_last_producer_posts (cfg : Config) {s : State} {i : ℕ}
    (hi : i < cfg.P) (hpc : (s.prods i).pc = ProdPc.finish) :
    ∃ t, step cfg s (Act.prod i) = some t
      ∧ t.active_producers = s.active_producers - 1
      ∧ (s.active_producers = 1 → t.full_slots = s.full_slots + cfg.C)
      ∧ (s.active_producers ≠ 1 → t.full_slots = s.full_slots) := by
  refine ⟨{ s with
      active_producers := s.active_producers - 1,
      full_slots := if s.active_producers - 1 = 0
                    then s.full_slots + cfg.C
                    else s.full_slots,
      prods := Function.update s.prods i
        { s.prods i with pc := ProdPc.done } }, ?_, rfl, ?_, ?_⟩
  · simp [step, hi, hpc]
  · intro h1
    show (if s.active_producers - 1 = 0 then s.full_slots + cfg.C
      else s.full_slots) = s.full_slots + cfg.C
    rw [if_pos (by omega)]
  · intro h1
    show (if s.active_producers - 1 = 0 then s.full_slots + cfg.C
      else s.full_slots) = s.full_slots
    rw [if_neg (by omega)]

/-- C6: per-producer FIFO.  In any complete run, the subsequence of the
global removal order contributed by producer `i` is exactly producer `i`'s
emission order. -/
theorem C6_producer_fifo (cfg : Config) (hP : 1 ≤ cfg.P) (hC : 1 ≤ cfg.C)
    {s : State} (hre : Reachable cfg s) (hdone : AllDone cfg s)
    {i : ℕ} (hi : i < cfg.P) :
    byProd i s.remLog = (s.prods i).produced := by
  obtain ⟨hA, hB, hC', hD, hE, hF, hcnt, hG, hH, hI, hK, hL, hM, hOut⟩ :=
    inv_reachable hP hre
  obtain ⟨hpd, hcd, hmd⟩ := hdone
  have h0 : s.count = 0 := (hE 0 hC (Or.inr (hcd 0 hC))).2
  have hq : bufQueue cfg s = [] := by
    unfold bufQueue
    rw [h0]
    rfl
  rw [hq, List.append_nil] at hF
  rw [hF]
  exact hG i hi

end Q12

namespace Q12

/-- A concrete configuration: 1 producer with 1 sale, 1 consumer, capacity 1. -/
def cfgW : Config := ⟨1, 1, 1, fun _ => 1⟩

/-- A complete schedule of `cfgW`: the producer inserts its item and runs the
completion section, main posts, the consumer removes the item, re-checks,
sees the termination condition and exits. -/
def runActsW : List Act :=
  [Act.prod 0, Act.prod 0, Act.prod 0, Act.prod 0, Act.mainJoin,
    Act.cons 0, Act.cons 0, Act.cons 0, Act.cons 0, Act.cons 0, Act.cons 0]

/-- The final state of that schedule. -/
def sFinW : State := (runList cfgW runActsW (init cfgW)).get (by rfl)

lemma runW_eq : runList cfgW runActsW (init cfgW) = some sFinW :=
  (Option.some_get _).symm

lemma reachW : Reachable cfgW sFinW :=
  runList_reachable cfgW runActsW (init cfgW) sFinW runW_eq

lemma allDoneW : AllDone cfgW sFinW := by decide

end Q12

namespace Q12

/-- Witness for C1 at the concrete configuration `cfgW`. -/
theorem C1_witness :
    (1 ≤ cfgW.P) ∧ (1 ≤ cfgW.C) ∧ (1 ≤ cfgW.cap)
      ∧ ((∀ f : ℕ → State, f 0 = init cfgW →
            (∀ k, Step cfgW (f k) (f (k + 1))) → False)
        ∧ (∀ s, Reachable cfgW s → (¬ ∃ t, Step cfgW s t) → AllDone cfgW s)) :=
  ⟨by decide, by decide, by decide,
    C1_termination_no_deadlock cfgW (by decide) (by decide) (by decide)⟩

/-- Witness for C2 on the complete run `runActsW` of `cfgW`. -/
theorem C2_witness :
    (1 ≤ cfgW.P) ∧ (1 ≤ cfgW.C) ∧ AllDone cfgW sFinW
      ∧ producedLen cfgW sFinW = consumedLen cfgW sFinW :=
  ⟨by decide, by decide, allDoneW,
    C2_conservation cfgW (by decide) (by decide) reachW allDoneW⟩

/-- Witness for C3 at the (reachable) initial state of `cfgW`. -/
theorem C3_witness :
    (1 ≤ cfgW.P)
      ∧ (0 ≤ (init cfgW).count ∧ (init cfgW).count ≤ (cfgW.cap : ℤ)
        ∧ (∀ i < cfgW.P, ((init cfgW).prods i).pc = ProdPc.crit →
            (init cfgW).count < (cfgW.cap : ℤ))) :=
  ⟨by decide,
    C3_bounded_occupancy cfgW (by decide) Relation.ReflTransGen.refl⟩

/-- A concrete state of `cfgW` in which the consumer has woken from
`sem_wait(&full_slots)` after the last producer finished on an empty
buffer. -/
def s4W : State :=
  { init cfgW with
      conss := fun _ => { pc := ConsPc.crit, consumed := [] },
      active_producers := 0 }

/-- Witness for C4 at the concrete state `s4W`. -/
theorem C4_witness :
    (0 < cfgW.C) ∧ ((s4W.conss 0).pc = ConsPc.crit)
      ∧ s4W.active_producers = 0 ∧ s4W.count = 0
      ∧ (∃ s1 s2, step cfgW s4W (Act.cons 0) = some s1
          ∧ step cfgW s1 (Act.cons 0) = some s2
          ∧ (s1.conss 0).pc = ConsPc.repost
          ∧ s2.full_slots = s4W.full_slots + 1
          ∧ (s2.conss 0).pc = ConsPc.done
          ∧ (s2.conss 0).consumed = (s4W.conss 0).consumed
          ∧ s2.buffer = s4W.buffer ∧ s2.in_idx = s4W.in_idx
          ∧ s2.out_idx = s4W.out_idx
          ∧ s2.count = s4W.count ∧ s2.remLog = s4W.remLog) :=
  ⟨by decide, rfl, rfl, rfl,
    C4_shutdown_repost cfgW (by decide) rfl rfl rfl⟩

/-- A concrete state of `cfgW` in which the producer is about to run its
completion critical section. -/
def s5W : State :=
  { init cfgW with
      prods := fun _ => { remaining := 0, pc := ProdPc.finish, produced := [] } }

/-- Witness for C5 at the concrete state `s5W` (the producer is the last
one: `active_producers = 1`). -/
theorem C5_witness :
    (0 < cfgW.P) ∧ ((s5W.prods 0).pc = ProdPc.finish)
      ∧ (∃ t, step cfgW s5W (Act.prod 0) = some t
          ∧ t.active_producers = s5W.active_producers - 1
          ∧ (s5W.active_producers = 1 → t.full_slots = s5W.full_slots + cfgW.C)
          ∧ (s5W.active_producers ≠ 1 → t.full_slots = s5W.full_slots)) :=
  ⟨by decide, rfl, C5_last_producer_posts cfgW (by decide) rfl⟩

/-- Witness for C6 on the complete run `runActsW` of `cfgW`. -/
theorem C6_witness :
    (1 ≤ cfgW.P) ∧ (1 ≤ cfgW.C) ∧ AllDone cfgW sFinW
      ∧ byProd 0 sFinW.remLog = (sFinW.prods 0).produced :=
  ⟨by decide, by decide, allDoneW,
    C6_producer_fifo cfgW (by decide) (by decide) reachW allDoneW (by decide)⟩

end Q12

namespace Q11

/-- Shared state of q1_1.c as seen by the single consumer: the circular
buffer (sale values abstracted to integers), `count`, `out_idx`,
`active_producers` and the `empty_slots` semaphore. -/
structure St where
  buffer : ℕ → ℤ
  count : ℤ
  out_idx : ℕ
  active_producers : ℤ
  empty_slots : ℕ

/-- The drain loop of the q1_1 consumer (lines 226-231): reads `n` items
starting at `out_idx`, advancing `out_idx = (out_idx + 1) % BUFFER_SIZE`
after each read; returns the items in reading order and the final
`out_idx`. -/
def drainLoop (cap : ℕ) (buffer : ℕ → ℤ) : ℕ → ℕ → List ℤ × ℕ
  | out, 0 => ([], out)
  | out, n + 1 =>
    let r := drainLoop cap buffer ((out + 1) % cap) n
    (buffer out :: r.1, r.2)

/-- Exit condition of the consumer's `pthread_cond_wait` loop (line 205):
the loop runs `while (count < BUFFER_SIZE && active_producers > 0)`, so the
consumer proceeds only once the buffer is full or all producers finished. -/
def waitDone (cap : ℕ) (s : St) : Prop :=
  ¬(s.count < (cap : ℤ) ∧ 0 < s.active_producers)

instance (cap : ℕ) (s : St) : Decidable (waitDone cap s) := by
  unfold waitDone
  infer_instance

/-- Result of one iteration of the consumer's outer loop. -/
inductive IterResult
  | exit
  | drained (s2 : St) (items : List ℤ)
  | idle (s2 : St)

/-- One iteration of the q1_1 consumer body after the condition wait (lines
212-248): if `active_producers == 0 && count == 0`, exit the loop; else if
`count > 0`, drain all `count` buffered items inside the critical section,
set `count = 0` and post `count` empty slots; otherwise leave the state
unchanged. -/
def consumerIteration (cap : ℕ) (s : St) : IterResult :=
  if s.active_producers = 0 ∧ s.count = 0 then .exit
  else if 0 < s.count then
    .drained { s with
                count := 0,
                out_idx := (drainLoop cap s.buffer s.out_idx s.count.toNat).2,
                empty_slots := s.empty_slots + s.count.toNat }
      (drainLoop cap s.buffer s.out_idx s.count.toNat).1
  else .idle s

lemma drainLoop_length (cap : ℕ) (buffer : ℕ → ℤ) :
    ∀ (n out : ℕ), (drainLoop cap buffer out n).1.length = n := by
  intro n
  induction n with
  | zero => intro out; rfl
  | succ m ih =>
    intro out
    show (buffer out :: (drainLoop cap buffer ((out + 1) % cap) m).1).length
      = m + 1
    rw [List.length_cons, ih]

lemma drainLoop_eq (cap : ℕ) (buffer : ℕ → ℤ) (hcap : 0 < cap) :
    ∀ (n out : ℕ), out < cap →
      (drainLoop cap buffer out n).1
        = (List.range n).map fun k => buffer ((out + k) % cap) := by
  intro n
  induction n with
  | zero => intro out _; rfl
  | succ m ih =>
    intro out hout
    show buffer out :: (drainLoop cap buffer ((out + 1) % cap) m).1
      = (List.range (m + 1)).map fun k => buffer ((out + k) % cap)
    rw [List.range_succ_eq_map, List.map_cons, List.map_map,
      ih ((out + 1) % cap) (Nat.mod_lt _ hcap)]
    congr 1
    · rw [Nat.add_zero, Nat.mod_eq_of_lt hout]
    · apply List.map_congr_left
      intro k _
      show buffer (((out + 1) % cap + k) % cap)
        = buffer ((out + (k + 1)) % cap)
      rw [Nat.mod_add_mod,
        show out + 1 + k = out + (k + 1) from by omega]

end Q11

namespace Q11

/-- C10: one consuming pass of the q1_1 consumer.  Once past the condition
wait (buffer full or no producer left), the iteration either exits — and
then the buffer was empty — or drains *all* `count` buffered items in one
critical section, leaving `count = 0`; a drain happens only with
`count == BUFFER_SIZE` or no active producer; the idle branch is possible
only on an empty buffer.  The consumer never removes a strict subset of the
buffered items. -/
theorem C10_full_drain (cap : ℕ) (s : St)
    (h0 : 0 ≤ s.count) (hcap : s.count ≤ (cap : ℤ)) (hwait : waitDone cap s) :
    (consumerIteration cap s = IterResult.exit → s.count = 0)
      ∧ (∀ s2 L, consumerIteration cap s = IterResult.drained s2 L →
          s2.count = 0 ∧ L.length = s.count.toNat
            ∧ (s.out_idx < cap →
                L = (List.range s.count.toNat).map
                  fun k => s.buffer ((s.out_idx + k) % cap))
            ∧ (s.count = (cap : ℤ) ∨ s.active_producers ≤ 0))
      ∧ (∀ s2, consumerIteration cap s = IterResult.idle s2 → s.count = 0) := by
  unfold waitDone at hwait
  unfold consumerIteration
  by_cases hx : s.active_producers = 0 ∧ s.count = 0
  · rw [if_pos hx]
    refine ⟨fun _ => hx.2, ?_, ?_⟩
    · intro s2 L h
      cases h
    · intro s2 h
      cases h
  · rw [if_neg hx]
    by_cases hc : 0 < s.count
    · rw [if_pos hc]
      refine ⟨?_, ?_, ?_⟩
      · intro h
        cases h
      · intro s2 L h
        have hL : L = (drainLoop cap s.buffer s.out_idx s.count.toNat).1 := by
          cases h
          rfl
        have hs2 : s2.count = 0 := by
          cases h
          rfl
        refine ⟨hs2, ?_, ?_, ?_⟩
        · rw [hL, drainLoop_length]
        · intro hout
          have hcap0 : 0 < cap := by omega
          rw [hL, drainLoop_eq cap s.buffer hcap0 s.count.toNat s.out_idx hout]
        · by_cases ha : 0 < s.active_producers
          · left
            have : ¬ s.count < (cap : ℤ) := fun hlt => hwait ⟨hlt, ha⟩
            omega
          · right
            omega
      · intro s2 h
        cases h
    · rw [if_neg hc]
      refine ⟨?_, ?_, ?_⟩
      · intro h
        cases h
      · intro s2 L h
        cases h
      · intro s2 _
        omega

/-- Concrete state for the C10 witness: full buffer of capacity 2 with one
producer still active. -/
def s10W : St :=
  { buffer := fun k => (k : ℤ), count := 2, out_idx := 0,
    active_producers := 1, empty_slots := 0 }

/-- Witness for C10 at `s10W`. -/
theorem C10_witness :
    (0 ≤ s10W.count) ∧ (s10W.count ≤ ((2 : ℕ) : ℤ)) ∧ waitDone 2 s10W
      ∧ ((consumerIteration 2 s10W = IterResult.exit → s10W.count = 0)
        ∧ (∀ s2 L, consumerIteration 2 s10W = IterResult.drained s2 L →
            s2.count = 0 ∧ L.length = s10W.count.toNat
              ∧ (s10W.out_idx < 2 →
                  L = (List.range s10W.count.toNat).map
                    fun k => s10W.buffer ((s10W.out_idx + k) % 2))
              ∧ (s10W.count = ((2 : ℕ) : ℤ) ∨ s10W.active_producers ≤ 0))
        ∧ (∀ s2, consumerIteration 2 s10W = IterResult.idle s2 →
            s10W.count = 0)) :=
  ⟨by decide, by decide, by decide,
    C10_full_drain 2 s10W (by decide) (by decide) (by decide)⟩

end Q11

namespace ConstructInit

/-- Outcome of running a `main` initialization sequence. -/
inductive InitResult
  | configError
  | started (empty_slots full_slots : ℤ)
  deriving DecidableEq

/-- Translated from `main` of q1_2.c (lines 210-222), parameterized by the
`#define` constants `BUFFER_SIZE`, `NUM_PRODUCERS`, `NUM_CONSUMERS`: it runs
`pthread_mutex_init`, `pthread_cond_init`,
`sem_init(&empty_slots, 0, BUFFER_SIZE)`, `sem_init(&full_slots, 0, 0)` and
proceeds directly to the `pthread_create` loops.  No branch inspects the
configuration values and the return values of the init calls are ignored,
so construction never reports a configuration error. -/
def q1_2_construct (bufferSize numProducers numConsumers : ℤ) : InitResult :=
  InitResult.started bufferSize 0

/-- Translated from `main` of q1_1.c (lines 266-277): the same unconditional
initialization sequence; again no validation of the constants. -/
def q1_1_construct (bufferSize numProducers numConsumers : ℤ) : InitResult :=
  InitResult.started bufferSize 0

/-- The compiled configuration constants of the two programs. -/
def q1_2_BUFFER_SIZE : ℤ := 5
def q1_2_NUM_PRODUCERS : ℤ := 6
def q1_2_NUM_CONSUMERS : ℤ := 2
def q1_1_BUFFER_SIZE : ℤ := 5
def q1_1_NUM_PRODUCERS : ℤ := 3
def q1_1_NUM_CONSUMERS : ℤ := 1

/-- Counterexample to C7: at capacity `0` and consumer count `0` (both
violating the claimed precondition), the q1_2 construction sequence does not
fail with a configuration error — it proceeds and starts the workers. -/
theorem C7_counterexample :
    ((0 : ℤ) ≤ 0) ∧ ((0 : ℤ) ≤ 0)
      ∧ q1_2_construct 0 6 0 ≠ InitResult.configError
      ∧ q1_2_construct 0 6 0 = InitResult.started 0 0
      ∧ q1_1_construct 0 3 0 ≠ InitResult.configError := by
  refine ⟨le_refl 0, le_refl 0, ?_, rfl, ?_⟩
  · intro h
    cases h
  · intro h
    cases h

/-- C7 amended: construction performs no validation at all — for every value
of the configuration constants (including capacity ≤ 0 or consumer count
≤ 0) the initialization sequence of both programs proceeds without a
configuration error; invalid configurations cannot arise at runtime only
because the compile-time constants are valid (capacity 5 and consumer count
2 in q1_2.c, capacity 5 and consumer count 1 in q1_1.c). -/
theorem C7_no_validation :
    (∀ cap np nc : ℤ, q1_2_construct cap np nc ≠ InitResult.configError)
      ∧ (∀ cap np nc : ℤ, q1_1_construct cap np nc ≠ InitResult.configError)
      ∧ 0 < q1_2_BUFFER_SIZE ∧ 0 < q1_2_NUM_CONSUMERS
      ∧ 0 < q1_1_BUFFER_SIZE ∧ 0 < q1_1_NUM_CONSUMERS := by
  refine ⟨?_, ?_, by decide, by decide, by decide, by decide⟩
  · intro cap np nc h
    cases h
  · intro cap np nc h
    cases h

end ConstructInit

namespace CalcLeibniz

/-- `#define SIZE 10000000` (calc-leibniz.c line 7). -/
def SIZE : ℕ := 10000000

/-- `#define NUM_THREADS 2` (calc-leibniz.c line 6). -/
def NUM_THREADS : ℕ := 2

/-- `array[i] = i` — how `main` fills the array (lines 35-37). -/
def array (i : ℕ) : ℕ := i

/-- The accumulation loop of `calcular` (lines 19-22):
`for (i = first; i < SIZE; i += NUM_THREADS) acc += array[i];`. -/
def calcularAcc (a : ℕ → ℕ) (i : ℕ) : ℕ :=
  if h : i < SIZE then a i + calcularAcc a (i + NUM_THREADS) else 0
termination_by SIZE - i
decreasing_by
  simp only [SIZE, NUM_THREADS] at *
  omega

/-- `main` starts thread `i` with `first = i * (SIZE / NUM_THREADS)`
(calc-leibniz.c line 51). -/
def threadStart (i : ℕ) : ℕ := i * (SIZE / NUM_THREADS)

/-- `result += acc` (calc-leibniz.c lines 24-26): a worker adds its local
accumulator into the shared `result` under the mutex. -/
def addResult (result acc : ℕ) : ℕ := result + acc

/-- `result` after `main` joins the `NUM_THREADS = 2` workers
(lines 49-59): thread 0 (started at `threadStart 0`) and thread 1
(started at `threadStart 1`) each add their accumulator into `result`. -/
def mainResult : ℕ :=
  addResult (calcularAcc array (threadStart 0)) (calcularAcc array (threadStart 1))

/-- The sequential sum of the whole array — what a correct partition of
`[0, SIZE)` would compute. -/
def seqSum : ℕ := ∑ i in Finset.range SIZE, array i

/-- Closed form for the stride-2 loop of `calcular` on the identity array:
it sums `i, i+2, i+4, …` up to `SIZE`. -/
lemma calcularAcc_eq : ∀ (n i : ℕ), SIZE - i ≤ n →
    calcularAcc array i
      = ∑ k in Finset.range ((SIZE - i + 1) / 2), (i + 2 * k) := by
  intro n
  induction n with
  | zero =>
    intro i hle
    have h : ¬ i < SIZE := by omega
    rw [calcularAcc, dif_neg h]
    have h2 : (SIZE - i + 1) / 2 = 0 := by omega
    rw [h2]
    rfl
  | succ m ih =>
    intro i hle
    by_cases h : i < SIZE
    · rw [calcularAcc, dif_pos h,
        ih (i + NUM_THREADS) (by simp only [NUM_THREADS]; omega)]
      have hc : (SIZE - i + 1) / 2 = (SIZE - (i + NUM_THREADS) + 1) / 2 + 1 := by
        simp only [NUM_THREADS]
        omega
      rw [hc, Finset.sum_range_succ']
      have hsum : ∑ k in Finset.range ((SIZE - (i + NUM_THREADS) + 1) / 2),
            (i + 2 * (k + 1))
          = ∑ k in Finset.range ((SIZE - (i + NUM_THREADS) + 1) / 2),
            ((i + NUM_THREADS) + 2 * k) := by
        refine Finset.sum_congr rfl fun k _ => ?_
        simp only [NUM_THREADS]
        ring
      rw [hsum]
      simp only [array]
      omega
    · rw [calcularAcc, dif_neg h]
      have h2 : (SIZE - i + 1) / 2 = 0 := by omega
      rw [h2]
      rfl

/-- Gauss closed form of the arithmetic sums appearing above. -/
lemma stride_sum (c n : ℕ) :
    ∑ k in Finset.range n, (c + 2 * k) = n * c + n * (n - 1) := by
  have h2 : ∑ k in Finset.range n, 2 * k = n * (n - 1) := by
    have h3 := Finset.sum_range_id_mul_two n
    rw [← Finset.mul_sum]
    omega
  rw [Finset.sum_add_distrib, h2, Finset.sum_const, Finset.card_range,
    smul_eq_mul]

/-- C8: the parallel reduction of calc-leibniz.c does not partition
`[0, SIZE)`.  Thread 0 sums the even indices of `[0, SIZE)` and thread 1
sums the even indices of `[SIZE/2, SIZE)` — the overlap is double-counted
and the odd indices are never summed — so the parallel result differs from
the sequential sum of the array. -/
theorem C8_not_a_partition :
    mainResult = 43749992500000 ∧ seqSum = 49999995000000
      ∧ mainResult ≠ seqSum := by
  have h0 : calcularAcc array 0 = 24999995000000 := by
    rw [calcularAcc_eq SIZE 0 (by omega)]
    have he : (SIZE - 0 + 1) / 2 = 5000000 := by simp [SIZE]
    rw [he]
    have := stride_sum 0 5000000
    omega
  have h1 : calcularAcc array 5000000 = 18749997500000 := by
    rw [calcularAcc_eq SIZE 5000000 (by simp [SIZE])]
    have he : (SIZE - 5000000 + 1) / 2 = 2500000 := by simp [SIZE]
    rw [he]
    have := stride_sum 5000000 2500000
    omega
  have hA : calcularAcc array (threadStart 0) = 24999995000000 := by
    rw [show threadStart 0 = 0 from by simp [threadStart]]
    exact h0
  have hB : calcularAcc array (threadStart 1) = 18749997500000 := by
    rw [show threadStart 1 = 5000000 from by simp [threadStart, SIZE, NUM_THREADS]]
    exact h1
  have hm : mainResult = 43749992500000 := by
    unfold mainResult
    rw [hA, hB]
    unfold addResult
    norm_num
  have hs : seqSum = 49999995000000 := by
    have h3 := Finset.sum_range_id_mul_two SIZE
    unfold seqSum
    simp only [array]
    simp only [SIZE] at h3 ⊢
    omega
  exact ⟨hm, hs, by rw [hm, hs]; omega⟩

end CalcLeibniz

/-!
## q2_1.c / q2_2.c — multi-threaded Leibniz series (claim C9)

`partialFormula start` (q2_1.c lines 79-94, q2_2.c lines 66-81) always runs
`for (k = start_term; k < start_term + PARTIAL_NUM_TERMS; k++)`: the worker
receives only its start index, and the iteration count is the compiled
constant `PARTIAL_NUM_TERMS = SIZE / NUM_THREADS`.  `main` computes a
`terms_to_compute` adjustment for the last thread (q2_1.c lines 160-166)
but never passes it to the worker.  We model the constants parametrically
(`S` for `SIZE`, `T` for `NUM_THREADS`) and reason about the set of series
indices each worker visits.
-/

namespace Q2

/-- `#define PARTIAL_NUM_TERMS ((SIZE) / (NUM_THREADS))`
(q2_1.c line 37, q2_2.c line 27), parametric in the two constants. -/
def PARTIAL_NUM_TERMS (S T : ℕ) : ℕ := S / T

/-- `main` starts thread `i` at `*init = i * PARTIAL_NUM_TERMS`
(q2_1.c line 158, q2_2.c line 151). -/
def threadStart (S T i : ℕ) : ℕ := i * PARTIAL_NUM_TERMS S T

/-- The series indices visited by `partialFormula start`:
`for (k = start_term; k < start_term + PARTIAL_NUM_TERMS; k++)`
(q2_1.c lines 82-91).  The count does not depend on the thread. -/
def partialIndices (S T start : ℕ) : Finset ℕ :=
  Finset.Ico start (start + PARTIAL_NUM_TERMS S T)

/-- `terms_to_compute` as computed in `main` (q2_1.c lines 160-166): the
last thread's count is adjusted by `SIZE % NUM_THREADS`.  The variable is
local to the loop body and is never passed to `partialProcessing`. -/
def terms_to_compute (S T i : ℕ) : ℕ :=
  if i = T - 1 then PARTIAL_NUM_TERMS S T + S % T else PARTIAL_NUM_TERMS S T

/-- The set of series indices computed by the whole program: the union of
the workers' index sets. -/
def computedIndices (S T : ℕ) : Finset ℕ :=
  (Finset.range T).biUnion fun i => partialIndices S T (threadStart S T i)

lemma mem_computedIndices (S T x : ℕ) :
    x ∈ computedIndices S T ↔ x < T * (S / T) := by
  unfold computedIndices partialIndices threadStart PARTIAL_NUM_TERMS
  simp only [Finset.mem_biUnion, Finset.mem_range, Finset.mem_Ico]
  constructor
  · rintro ⟨i, hi, hlo, hhi⟩
    have h1 : i + 1 ≤ T := hi
    have h2 : (i + 1) * (S / T) ≤ T * (S / T) := Nat.mul_le_mul_right _ h1
    have h3 : i * (S / T) + S / T = (i + 1) * (S / T) := by ring
    omega
  · intro hx
    by_cases hq : S / T = 0
    · rw [hq] at hx
      omega
    · refine ⟨x / (S / T), ?_, ?_, ?_⟩
      · exact (Nat.div_lt_iff_lt_mul (Nat.pos_of_ne_zero hq)).mpr hx
      · exact Nat.div_mul_le_self x (S / T)
      · have hdm := Nat.div_add_mod x (S / T)
        have hmod : x % (S / T) < S / T := Nat.mod_lt x (Nat.pos_of_ne_zero hq)
        have hcomm : x / (S / T) * (S / T) = S / T * (x / (S / T)) :=
          Nat.mul_comm _ _
        omega

/-- C9: in q2_1.c / q2_2.c every thread computes exactly
`SIZE / NUM_THREADS` series terms regardless of the remainder — thread `i`
visits exactly the `S / T` indices `[i*(S/T), (i+1)*(S/T))` — so the whole
program computes exactly the indices `[0, T*(S/T))`; whenever `T` does not
divide `S`, the `terms_to_compute` adjustment computed in `main` differs
from what the worker actually uses, and the final `S % T` indices
`[T*(S/T), S)` of the series are omitted (and there is at least one such
omitted index). -/
theorem C9_remainder_omitted (S T i : ℕ) (hT : 0 < T) :
    (partialIndices S T (threadStart S T i)).card = S / T
    ∧ computedIndices S T = Finset.Ico 0 (T * (S / T))
    ∧ (S % T ≠ 0 →
        terms_to_compute S T (T - 1) ≠ PARTIAL_NUM_TERMS S T
        ∧ Finset.Ico 0 S \ computedIndices S T = Finset.Ico (T * (S / T)) S
        ∧ (Finset.Ico 0 S \ computedIndices S T).card = S % T
        ∧ (Finset.Ico 0 S \ computedIndices S T).Nonempty) := by
  have hdm := Nat.div_add_mod S T
  have hcup : computedIndices S T = Finset.Ico 0 (T * (S / T)) := by
    ext x
    rw [mem_computedIndices S T x, Finset.mem_Ico]
    omega
  refine ⟨?_, hcup, ?_⟩
  · unfold partialIndices threadStart PARTIAL_NUM_TERMS
    rw [Nat.card_Ico]
    exact Nat.add_sub_cancel_left (i * (S / T)) (S / T)
  · intro hrem
    have hdiff : Finset.Ico 0 S \ computedIndices S T
        = Finset.Ico (T * (S / T)) S := by
      rw [hcup]
      ext x
      simp only [Finset.mem_sdiff, Finset.mem_Ico]
      omega
    refine ⟨?_, hdiff, ?_, ?_⟩
    · unfold terms_to_compute PARTIAL_NUM_TERMS
      simp only [if_pos rfl]
      show S / T + S % T ≠ S / T
      intro hEq
      exact hrem (by omega)
    · rw [hdiff, Nat.card_Ico]
      generalize hg : T * (S / T) = M at hdm ⊢
      omega
    · rw [hdiff]
      refine Finset.nonempty_Ico.mpr ?_
      generalize hg : T * (S / T) = M at hdm ⊢
      omega

/-- Witness for C9 at the concrete configuration `S = 10`, `T = 3`,
thread `i = 1`: the hypothesis `0 < 3` holds and the theorem applies. -/
theorem C9_witness :
    0 < 3
    ∧ ((partialIndices 10 3 (threadStart 10 3 1)).card = 10 / 3
      ∧ computedIndices 10 3 = Finset.Ico 0 (3 * (10 / 3))
      ∧ (10 % 3 ≠ 0 →
          terms_to_compute 10 3 (3 - 1) ≠ PARTIAL_NUM_TERMS 10 3
          ∧ Finset.Ico 0 10 \ computedIndices 10 3 = Finset.Ico (3 * (10 / 3)) 10
          ∧ (Finset.Ico 0 10 \ computedIndices 10 3).card = 10 % 3
          ∧ (Finset.Ico 0 10 \ computedIndices 10 3).Nonempty)) :=
  ⟨by decide, C9_remainder_omitted 10 3 1 (by decide)⟩

end Q2
